import Mathlib

/-!
Verification development for the evodex genotype/variation engine
(`evodex/evolution/{core,tree,utils}.py`).

The Python code operates generically on pydantic models whose fields may
carry `Gene` (scalar) or `GeneList` (sequence) annotations.  We embed such
genotypes as a first-order tree type `Config` below: a record has a type
name and an ordered list of fields; each field carries its name, its
optional gene annotation, whether its declared numeric kind is `int`
(`field_info.annotation is int` in the source), and a value.  Values are
rationals (exact stand-ins for Python floats; the one IEEE narrowing the
code performs, the `float32` cast closing `flatten_genome`, is modelled
explicitly by `quant32`/`flatten32`), opaque non-numeric leaves, tuples
of numbers, nested records, or tuples of records.

The `EvolvableConfig` base class and the `Gene`/`GeneList` record types are
referenced by every module of `evodex/evolution` but their definition file
is stale in the snapshot; their field shapes are pinned by the construction
sites (`robot.py`, `isaac/robot/evolvable.py`) and the uses in
`core.py`/`tree.py`/`utils.py`: `Gene(mutation_std, min_val, max_val)`,
`GeneList(structure, min_len, max_len, add_prob, remove_prob)`, and
per-field annotations discoverable both through `_genes` and through field
metadata.  Modelled from the spec: `EvolvableConfig` exposes one annotation
per field to every component (the Schema Annotation Model of spec section 2
"is consulted by every other component"); here that is the `ann` component
of a field.

Randomness: numpy's global generator is embedded as an explicit `Rng`
state holding a stream of rational draws (used by `np.random.normal`,
which scales a unit draw by the standard deviation, and `np.random.rand`,
whose draws lie in `[0,1)`) and a stream of natural draws (used by
`np.random.randint(0, n)` and `np.random.choice`, reduced modulo the
range size so every index is attainable and uniformity is preserved).
-/

namespace Evodex

/-- Topological role of a list gene (`GeneList.Structure` in the source).
`structure` is a Lean keyword, hence the field is named `gstruct`. -/
inductive GStruct where
  | parallel
  | chain
deriving DecidableEq, Repr

/-- Scalar gene annotation (`Gene` as constructed in `robot.py`):
Gaussian mutation std and inclusive clamp bounds. -/
structure Gene where
  mutation_std : ℚ
  min_val : ℚ
  max_val : ℚ
deriving DecidableEq, Repr

/-- List gene annotation (`GeneList` as constructed in `robot.py`). -/
structure GeneList where
  gstruct : GStruct
  min_len : ℕ
  max_len : ℕ
  add_prob : ℚ
  remove_prob : ℚ
deriving DecidableEq, Repr

/-- A field's gene annotation: scalar gene or list gene (at most one). -/
inductive Ann where
  | gene (g : Gene)
  | geneList (gl : GeneList)
deriving DecidableEq, Repr

mutual
/-- A field value of a pydantic model instance. -/
inductive Val : Type where
  /-- a numeric (float/int) leaf -/
  | num (x : ℚ)
  /-- any other non-model, non-sequence leaf (strings, dicts, None, ...) -/
  | raw (s : String)
  /-- a tuple/list of numbers (e.g. `joint_angle_limit`) -/
  | rawLst (xs : List ℚ)
  /-- a nested model instance -/
  | sub (c : Config)
  /-- a tuple/list of nested model instances -/
  | lst (cs : Cfgs)

/-- A pydantic model instance: its concrete class name and its fields in
`model_fields` declaration order. -/
inductive Config : Type where
  | mk (tn : String) (fields : Flds)

/-- The ordered field list of a record. -/
inductive Flds : Type where
  | nil
  | cons (f : Fld) (fs : Flds)

/-- One field: name, optional gene annotation, whether the declared
annotation is `int`, and the current value. -/
inductive Fld : Type where
  | mk (name : String) (ann : Option Ann) (isInt : Bool) (v : Val)

/-- An ordered sequence of model instances (a tuple-of-models value). -/
inductive Cfgs : Type where
  | nil
  | cons (c : Config) (cs : Cfgs)
end

deriving instance DecidableEq for Config
deriving instance DecidableEq for Val
deriving instance DecidableEq for Fld
deriving instance DecidableEq for Flds
deriving instance DecidableEq for Cfgs

def Config.tn : Config → String
  | .mk t _ => t

def Config.fields : Config → Flds
  | .mk _ fs => fs

def Fld.name : Fld → String
  | .mk n _ _ _ => n

def Fld.ann : Fld → Option Ann
  | .mk _ a _ _ => a

def Fld.isInt : Fld → Bool
  | .mk _ _ b _ => b

def Fld.v : Fld → Val
  | .mk _ _ _ v => v

def Cfgs.length : Cfgs → ℕ
  | .nil => 0
  | .cons _ cs => cs.length + 1

def Cfgs.append : Cfgs → Cfgs → Cfgs
  | .nil, ds => ds
  | .cons c cs, ds => .cons c (cs.append ds)

def Cfgs.take : ℕ → Cfgs → Cfgs
  | 0, _ => .nil
  | _, .nil => .nil
  | n + 1, .cons c cs => .cons c (Cfgs.take n cs)

def Cfgs.drop : ℕ → Cfgs → Cfgs
  | 0, cs => cs
  | _, .nil => .nil
  | n + 1, .cons _ cs => Cfgs.drop n cs

def Cfgs.getD : Cfgs → ℕ → Config → Config
  | .nil, _, d => d
  | .cons c _, 0, _ => c
  | .cons _ cs, n + 1, d => cs.getD n d

/-- `del list[i]` -/
def Cfgs.eraseIdx : Cfgs → ℕ → Cfgs
  | .nil, _ => .nil
  | .cons _ cs, 0 => cs
  | .cons c cs, n + 1 => .cons c (cs.eraseIdx n)

def Cfgs.headD : Cfgs → Config → Config
  | .nil, d => d
  | .cons c _, _ => c

def Cfgs.head? : Cfgs → Option Config
  | .nil => none
  | .cons c _ => some c

def Flds.length : Flds → ℕ
  | .nil => 0
  | .cons _ fs => fs.length + 1

/-- Look up a field by name (first match), as `getattr` does. -/
def Flds.find? : Flds → String → Option Fld
  | .nil, _ => none
  | .cons f fs, n => if f.name = n then some f else fs.find? n

def Config.find? (c : Config) (n : String) : Option Fld :=
  c.fields.find? n

/-- The numpy random state: a stream of rational draws (`normal` unit
draws and `rand` draws) and a stream of natural draws (`randint`,
`choice`).  Exhausted streams yield `0`. -/
structure Rng where
  qs : List ℚ
  ns : List ℕ
deriving DecidableEq, Repr

def Rng.popQ : Rng → ℚ × Rng
  | ⟨[], ns⟩ => (0, ⟨[], ns⟩)
  | ⟨q :: qs, ns⟩ => (q, ⟨qs, ns⟩)

def Rng.popN : Rng → ℕ × Rng
  | ⟨qs, []⟩ => (0, ⟨qs, []⟩)
  | ⟨qs, n :: ns⟩ => (n, ⟨qs, ns⟩)

/-- `np.clip(x, lo, hi) = minimum(maximum(x, lo), hi)`. -/
def clip (x lo hi : ℚ) : ℚ := min (max x lo) hi

/-- Python 3 `round` to an integer: round half to even. -/
def pyRound (x : ℚ) : ℤ :=
  let f := ⌊x⌋
  let d := x - f
  if d < 1 / 2 then f
  else if 1 / 2 < d then f + 1
  else if 2 ∣ f then f else f + 1

/-- Rounding an exact rational to the nearest `float32`
(round-to-nearest, ties-to-even), the effect of
`np.array(flat_list, dtype=np.float32)`: the magnitude is scaled into a
24-bit significand at the value's binary exponent (clamped at `-126`,
below which float32 is subnormal with fixed scale `2⁻¹⁴⁹`), rounded to
an integer with ties to even, and scaled back.  A magnitude at or above
`2¹²⁸` overflows to infinity in the source; the rational model has no
infinities and keeps rounding at the same granularity there (no claim
evaluates such a value).  The cast is idempotent, so the source's
re-casting of inner vectors at every recursion level equals one
elementwise cast of the final vector. -/
def quant32 (x : ℚ) : ℚ :=
  if x = 0 then 0
  else
    (if x < 0 then (-1 : ℚ) else 1) *
      (pyRound (|x| * 2 ^ (23 - max (Int.log 2 |x|) (-126))) : ℚ) *
        2 ^ (max (Int.log 2 |x|) (-126) - 23)

/-! ## Mutation engine (`apply_mutations`, `core.py` lines 12-76)

The source deep-copies the input, then for each field of the copy first
applies part A (scalar Gaussian mutation with clipping) or part B
(list add/remove), and then part C, which recurses into nested models
and into lists of models.  Part C branches on — and rebuilds from — the
`current_value` local that was read *before* parts A/B ran, exactly as in
the source.  Deep copies are value copies here (value semantics). -/

/-- Part B of `apply_mutations` on a list of models (`Chromosome`
mutation): draw `rand`; if it is below `add_prob` and the length is below
`max_len`, and the list is non-empty, append a deep copy of a uniformly
chosen element; then draw `rand` again; if below `remove_prob` and the
(possibly grown) length exceeds `min_len`, delete a uniformly chosen
index. -/
def chromStep (gl : GeneList) (cs : Cfgs) (r : Rng) : Cfgs × Rng :=
  let (qa, r1) := r.popQ
  let (cs1, r2) :=
    if qa < gl.add_prob ∧ cs.length < gl.max_len then
      match cs with
      | .nil => (cs, r1)
      | .cons _ _ =>
        let (k, r') := r1.popN
        (cs.append (.cons (cs.getD (k % cs.length) (.mk "" .nil)) .nil), r')
    else (cs, r1)
  let (qr, r3) := r2.popQ
  if qr < gl.remove_prob ∧ cs1.length > gl.min_len then
    let (k, r4) := r3.popN
    (cs1.eraseIdx (k % cs1.length), r4)
  else (cs1, r3)

/-- Part B on a tuple of plain numbers (a `GeneList` annotation on a
non-model sequence passes the source's `isinstance(.., (list, tuple))`
check as well). -/
def chromStepQ (gl : GeneList) (xs : List ℚ) (r : Rng) : List ℚ × Rng :=
  let (qa, r1) := r.popQ
  let (xs1, r2) :=
    if qa < gl.add_prob ∧ xs.length < gl.max_len then
      match xs with
      | [] => (xs, r1)
      | _ :: _ =>
        let (k, r') := r1.popN
        (xs ++ [xs.getD (k % xs.length) 0], r')
    else (xs, r1)
  let (qr, r3) := r2.popQ
  if qr < gl.remove_prob ∧ xs1.length > gl.min_len then
    let (k, r4) := r3.popN
    (xs1.eraseIdx (k % xs1.length), r4)
  else (xs1, r3)

mutual
/-- `apply_mutations(config)` with the random source made explicit. -/
def apply_mutations (c : Config) (r : Rng) : Config × Rng :=
  match c with
  | .mk tn fs =>
    let (fs', r') := mutFlds fs r
    (.mk tn fs', r')

def mutFlds (fs : Flds) (r : Rng) : Flds × Rng :=
  match fs with
  | .nil => (.nil, r)
  | .cons f fs =>
    let (f', r1) := mutFld f r
    let (fs', r2) := mutFlds fs r1
    (.cons f' fs', r2)

/-- One loop iteration of `apply_mutations` for one field. -/
def mutFld (f : Fld) (r : Rng) : Fld × Rng :=
  match f with
  | .mk name ann isInt v =>
    -- parts A and B (only when gene metadata is present)
    let (v1, r1) :=
      match ann, v with
      | some (.gene g), .num x =>
        let (q, r') := r.popQ
        (Val.num (clip (x + g.mutation_std * q) g.min_val g.max_val), r')
      | some (.geneList gl), .lst cs =>
        let (cs', r') := chromStep gl cs r
        (Val.lst cs', r')
      | some (.geneList gl), .rawLst xs =>
        let (xs', r') := chromStepQ gl xs r
        (Val.rawLst xs', r')
      | _, _ => (v, r)
    -- part C: branches on the value read before parts A/B (as the source
    -- does), so for sequence-valued fields it rebuilds from — and thereby
    -- reinstates — the pre-edit elements
    match v with
    | .sub c =>
      let (c', r2) := apply_mutations c r1
      (.mk name ann isInt (.sub c'), r2)
    | .lst cs =>
      let (cs', r2) := mutCfgs cs r1
      (.mk name ann isInt (.lst cs'), r2)
    | .rawLst xs => (.mk name ann isInt (.rawLst xs), r1)
    | _ => (.mk name ann isInt v1, r1)

def mutCfgs (cs : Cfgs) (r : Rng) : Cfgs × Rng :=
  match cs with
  | .nil => (.nil, r)
  | .cons c cs =>
    let (c', r1) := apply_mutations c r
    let (cs', r2) := mutCfgs cs r1
    (.cons c' cs', r2)
end

/-! ## Record-aligned crossover (`apply_crossover`, `core.py` lines 79-144)

The source deep-copies parent A as the child and walks the child's fields;
parent B's like-named field is fetched with `getattr`.  In Python both
parents share one class, so the lookup always succeeds and carries the
same annotation; here the lookup is by name and a missing or
shape-mismatched field on B leaves the child's (= A's) value in place —
those paths raise in Python and are excluded by the theorems'
same-skeleton hypotheses. -/

mutual
def apply_crossover (a b : Config) (r : Rng) : Config × Rng :=
  match a with
  | .mk tn fs =>
    let (fs', r') := crossFlds fs b r
    (.mk tn fs', r')

def crossFlds (fs : Flds) (b : Config) (r : Rng) : Flds × Rng :=
  match fs with
  | .nil => (.nil, r)
  | .cons f fs =>
    let (f', r1) := crossFld f (Option.map Fld.v (b.find? f.name)) r
    let (fs', r2) := crossFlds fs b r1
    (.cons f' fs', r2)

/-- One loop iteration of `apply_crossover` for one child field, given
parent B's value for the like-named field. -/
def crossFld (f : Fld) (vb? : Option Val) (r : Rng) : Fld × Rng :=
  match f with
  | .mk name ann isInt va =>
    match ann with
    | some (.geneList gl) =>
      -- A. one-point structural crossover on list genes
      match va, vb? with
      | .lst as, some (.lst bs) =>
        if as.length > 0 ∧ bs.length > 0 then
          let (k, r1) := r.popN
          let cut := k % min as.length bs.length
          let nl := (Cfgs.take cut as).append (Cfgs.drop cut bs)
          let nl := if nl.length > gl.max_len then Cfgs.take gl.max_len nl else nl
          (.mk name ann isInt (.lst nl), r1)
        else (.mk name ann isInt va, r)
      | .rawLst xs, some (.rawLst ys) =>
        if xs.length > 0 ∧ ys.length > 0 then
          let (k, r1) := r.popN
          let cut := k % min xs.length ys.length
          let nl := xs.take cut ++ ys.drop cut
          let nl := if nl.length > gl.max_len then nl.take gl.max_len else nl
          (.mk name ann isInt (.rawLst nl), r1)
        else (.mk name ann isInt va, r)
      | _, _ => (.mk name ann isInt va, r)
    | some (.gene _) =>
      -- B. arithmetic crossover (blending) on scalar genes
      match va, vb? with
      | .num xa, some (.num xb) =>
        let (alpha, r1) := r.popQ
        let nv := alpha * xa + (1 - alpha) * xb
        let nv := if isInt then ((pyRound nv : ℤ) : ℚ) else nv
        (.mk name ann isInt (.num nv), r1)
      | _, _ => (.mk name ann isInt va, r)
    | none =>
      match va, vb? with
      -- C. recursion into non-gene nested models
      | .sub ca, some (.sub cb) =>
        let (c', r1) := apply_crossover ca cb r
        (.mk name ann isInt (.sub c'), r1)
      -- D. elementwise recursion over non-gene lists of models, with the
      -- excess tail copied from whichever parent is longer
      | .lst as, some (.lst bs) =>
        let (cl, r1) := crossZip as bs r
        let ml := min as.length bs.length
        let tail :=
          if as.length > ml then Cfgs.drop ml as
          else if bs.length > ml then Cfgs.drop ml bs
          else .nil
        (.mk name ann isInt (.lst (cl.append tail)), r1)
      | .rawLst xs, some (.rawLst ys) =>
        let ml := min xs.length ys.length
        let tail :=
          if xs.length > ml then xs.drop ml
          else if ys.length > ml then ys.drop ml
          else []
        (.mk name ann isInt (.rawLst (xs.take ml ++ tail)), r)
      | _, _ => (.mk name ann isInt va, r)

/-- `apply_crossover` mapped over the overlapping prefix of two lists. -/
def crossZip (as bs : Cfgs) (r : Rng) : Cfgs × Rng :=
  match as, bs with
  | .cons a as, .cons b bs =>
    let (c', r1) := apply_crossover a b r
    let (cs', r2) := crossZip as bs r1
    (.cons c' cs', r2)
  | _, _ => (.nil, r)
end

/-! ## Genome codec: `flatten_genome` (`utils.py` lines 43-90)

Vector entries are `Option ℚ`: `some x` is a finite number, `none` is the
`np.nan` padding sentinel.  `Except Unit` models the `ValueError` raised
on inconsistent sibling block lengths and the failure of
`np.array(.., dtype=float32)` on non-numeric gene values; the source
raises at the end of the same call, so only success/failure and the
success value are observable.  Only gene-annotated fields contribute;
non-gene nested records are skipped entirely, exactly as in the source.
`flatten_genome` below is the exact vector the call assembles;
`flatten32` composes it with the elementwise `float32` rounding of the
closing `np.array(flat_list, dtype=np.float32)` (idempotent, so casting
once per entry equals the source's casting at every recursion level). -/

/-- The running `item_len` check of `flatten_genome`'s element loop: the
running value starts at 0; a zero running value is replaced by the
current block's length (the mismatch test, placed after that assignment,
can then never fire), and a non-zero running value must be matched
exactly by every subsequent block's length, else `ValueError`.  The
final running value sizes the sentinel padding. -/
def runLens : ℕ → List ℕ → Except Unit ℕ
  | L, [] => .ok L
  | 0, l :: ls => runLens l ls
  | L + 1, l :: ls => if l = L + 1 then runLens (L + 1) ls else .error ()

mutual
def flatten_genome (c : Config) : Except Unit (List (Option ℚ)) :=
  match c with
  | .mk _ fs => flatFlds fs

def flatFlds : Flds → Except Unit (List (Option ℚ))
  | .nil => .ok []
  | .cons f fs => do
    let a ← flatFld f
    let b ← flatFlds fs
    .ok (a ++ b)

/-- The contribution of one field to the flattened vector. -/
def flatFld : Fld → Except Unit (List (Option ℚ))
  | .mk _ ann _ v =>
    match ann, v with
    | some (.gene _), .num x => .ok [some x]
    | some (.gene _), _ => .error ()
    | some (.geneList gl), .lst cs => do
      let blocks ← flatItems cs
      let L ← runLens 0 (blocks.map List.length)
      let pad := if cs.length > 0 then
        (List.replicate ((gl.max_len - cs.length) * L) (none : Option ℚ)) else []
      .ok (some (cs.length : ℚ) :: (blocks.flatten ++ pad))
    | some (.geneList _), .rawLst xs =>
      -- non-model items are skipped, the per-item block length stays 0
      .ok [some (xs.length : ℚ)]
    | some (.geneList _), _ => .ok []
    | none, _ => .ok []

def flatItems : Cfgs → Except Unit (List (List (Option ℚ)))
  | .nil => .ok []
  | .cons c cs => do
    let h ← flatten_genome c
    let t ← flatItems cs
    .ok (h :: t)
end

/-- `flatten_genome` including the final
`np.array(flat_list, dtype=np.float32)` narrowing (`utils.py` line 90):
every finite vector entry is rounded to the nearest `float32`; the NaN
sentinel stays NaN. -/
def flatten32 (c : Config) : Except Unit (List (Option ℚ)) :=
  (flatten_genome c).map (List.map (Option.map quant32))

/-! ## Genome codec: `unflatten_genome` (`utils.py` lines 93-153)

`_unflatten_recursive` consumes the vector front-to-back guided only by
the class schema (field names, annotations, and the element type of list
genes), producing a sparse nested dict of gene values; `partial_update`
then deep-merges that dict into the template's `model_dump()` and the
class re-validates.  Here the schema is read off the template instance
(`__args__[0]`, the element class, becomes the first element of the
template's list value; a class has no separate existence in this value
embedding), the sparse dicts are the `UData` type, and the merge works
directly on `Config` values.  `Option` models the `IndexError`/validation
failures of the merge phase; an exhausted vector yields `none` entries
(the source would raise, a path no theorem relies on). -/

mutual
/-- The sparse result of `_unflatten_recursive` for one field value:
either one consumed number (possibly the NaN sentinel) or a list of
per-element sparse records. -/
inductive UVal : Type where
  | unum (q : Option ℚ)
  | ulist (ds : UDatas)

/-- A sparse record: the gene-annotated fields only, in field order. -/
inductive UData : Type where
  | nil
  | cons (name : String) (uv : UVal) (rest : UData)

inductive UDatas : Type where
  | nil
  | cons (d : UData) (ds : UDatas)
end

def popV : List (Option ℚ) → Option ℚ × List (Option ℚ)
  | [] => (none, [])
  | v :: vs => (v, vs)

def lookupU : UData → String → Option UVal
  | .nil, _ => none
  | .cons n uv rest, m => if n = m then some uv else lookupU rest m

theorem lookupU_sizeOf (u : UData) (m : String) {uv : UVal}
    (h : lookupU u m = some uv) : sizeOf uv < sizeOf u :=
  match u with
  | .nil => by simp [lookupU] at h
  | .cons n w rest => by
    by_cases hm : n = m
    · simp [lookupU, hm] at h
      subst h
      simp
      omega
    · simp [lookupU, hm] at h
      have := lookupU_sizeOf rest m h
      simp
      omega

theorem head?_sizeOf {cs : Cfgs} {c : Config} (h : cs.head? = some c) :
    sizeOf c < sizeOf cs := by
  cases cs with
  | nil => simp [Cfgs.head?] at h
  | cons c0 rest =>
    simp [Cfgs.head?] at h
    subst h
    simp
    omega

/-- The element schema of a list-gene field (`field_info.annotation.__args__[0]`
in the source): the class of the elements, read off the template's first
element here. -/
def Val.itemSchema : Val → Option Config
  | .lst cs => cs.head?
  | _ => none

theorem itemSchema_sizeOf (v : Val) : sizeOf v.itemSchema ≤ sizeOf v := by
  cases v with
  | lst cs =>
    cases cs with
    | nil => simp [Val.itemSchema, Cfgs.head?]
    | cons c rest => simp [Val.itemSchema, Cfgs.head?]; omega
  | num x => simp [Val.itemSchema]
  | raw s => simp [Val.itemSchema]
  | rawLst xs => simp [Val.itemSchema]
  | sub c => simp [Val.itemSchema]

mutual
/-- `_unflatten_recursive(cls)`: consume the vector according to the
schema and return the sparse gene data plus the remaining vector. -/
def parseCfg (schema : Config) (vs : List (Option ℚ)) :
    UData × List (Option ℚ) :=
  match schema with
  | .mk _ fs => parseFlds fs vs
termination_by (sizeOf schema, 0)

def parseFlds : Flds → List (Option ℚ) → UData × List (Option ℚ)
  | .nil, vs => (.nil, vs)
  | .cons (.mk name (some (.gene _)) _ _) fs, vs =>
    let (x, vs1) := popV vs
    let (rest, vs2) := parseFlds fs vs1
    (.cons name (.unum x) rest, vs2)
  | .cons (.mk name (some (.geneList gl)) _ v) fs, vs =>
    let (cx, vs1) := popV vs
    let count := (pyRound (cx.getD 0)).toNat
    have _his : sizeOf (Val.itemSchema v) ≤ sizeOf v := itemSchema_sizeOf v
    let (ds, vs2, fsz) := parseItems (Val.itemSchema v) count vs1
    let vs3 := if count > 0 then vs2.drop ((gl.max_len - count) * fsz) else vs2
    let (rest, vs4) := parseFlds fs vs3
    (.cons name (.ulist ds) rest, vs4)
  | .cons (.mk _ none _ _) fs, vs => parseFlds fs vs
termination_by fs _ => (sizeOf fs, 0)

/-- Consume `count` elements, each parsed against the element schema, and
report the source's `item_flat_size` (the vector consumption measured
after the first iteration that consumed anything). -/
def parseItems : Option Config → ℕ → List (Option ℚ) →
    UDatas × List (Option ℚ) × ℕ
  | _, 0, vs => (.nil, vs, 0)
  | none, n + 1, vs =>
    let (d, vs1) := ((UData.nil, vs) : UData × List (Option ℚ))
    let (ds, vs2, fsz) := parseItems none n vs1
    let c1 := vs.length - vs1.length
    (.cons d ds, vs2, if c1 = 0 then fsz else c1)
  | some s0, n + 1, vs =>
    let (d, vs1) := parseCfg s0 vs
    let (ds, vs2, fsz) := parseItems (some s0) n vs1
    let c1 := vs.length - vs1.length
    (.cons d ds, vs2, if c1 = 0 then fsz else c1)
termination_by s? count _ => (sizeOf s?, count + 1)
end

/-! `partial_update` (`utils.py` lines 11-40) merged directly on `Config`
values: a sparse value present in the unflattened data overrides the
template's value for that field, sequences merge index-by-index with the
template's *first* element reused as filler for extra elements (the
merged sequence always has the update's length), and `none` models the
`IndexError` on an empty template sequence with extra update elements and
the re-validation failure when a sparse list meets a non-model-list
template value. -/

mutual
def mergeCfg (t : Config) (u : UData) : Option Config :=
  match t with
  | .mk tn fs =>
    match mergeFlds fs u with
    | some fs' => some (.mk tn fs')
    | none => none
termination_by (sizeOf u, sizeOf t)

def mergeFlds (fs : Flds) (u : UData) : Option Flds :=
  match fs with
  | .nil => some .nil
  | .cons (.mk name ann isInt v) fs =>
    match h : lookupU u name with
    | none =>
      match mergeFlds fs u with
      | some rest => some (.cons (.mk name ann isInt v) rest)
      | none => none
    | some uv =>
      have _hu : sizeOf uv < sizeOf u := lookupU_sizeOf u name h
      match mergeVal v uv, mergeFlds fs u with
      | some v', some rest => some (.cons (.mk name ann isInt v') rest)
      | _, _ => none
termination_by (sizeOf u, sizeOf fs)

def mergeVal (v : Val) (uv : UVal) : Option Val :=
  match uv with
  | .unum (some q) => some (.num q)
  | .unum none => some (.raw "nan")
  | .ulist ds =>
    match v with
    | .lst cs =>
      match mergeList cs.head? cs ds with
      | some cs' => some (.lst cs')
      | none => none
    | _ => none
termination_by (sizeOf uv, sizeOf v)

/-- Sequence merge: `t0` is the template's first element (`template[0]`),
used as filler when the update is longer than the template. -/
def mergeList (t0 : Option Config) (cs : Cfgs) (ds : UDatas) : Option Cfgs :=
  match cs, ds with
  | _, .nil => some .nil
  | .cons c cs', .cons d ds' =>
    match mergeCfg c d, mergeList t0 cs' ds' with
    | some c', some rest => some (.cons c' rest)
    | _, _ => none
  | .nil, .cons d ds' =>
    match t0 with
    | none => none
    | some c0 =>
      match mergeCfg c0 d, mergeList t0 .nil ds' with
      | some c', some rest => some (.cons c' rest)
      | _, _ => none
termination_by (sizeOf ds, sizeOf cs)
end

/-- `unflatten_genome(flat_array, template)`. -/
def unflatten_genome (flat : List (Option ℚ)) (template : Config) :
    Option Config :=
  mergeCfg template (parseCfg template flat).1

/-! ## Tree projector (`tree.py`)

`Node` holds a deep copy of one record (here a value), the field name that
produced it, and its children in insertion order.  The mutable parent
pointer of the source is representation-only (it is set by `add_child` and
never consulted by `config_to_tree`/`tree_to_config`) and is omitted. -/

mutual
inductive Node : Type where
  | mk (data : Config) (fname : String) (children : Nodes)

inductive Nodes : Type where
  | nil
  | cons (n : Node) (ns : Nodes)
end

def Node.data : Node → Config
  | .mk d _ _ => d

def Node.fname : Node → String
  | .mk _ f _ => f

def Node.children : Node → Nodes
  | .mk _ _ ch => ch

def Nodes.append : Nodes → Nodes → Nodes
  | .nil, ms => ms
  | .cons n ns, ms => .cons n (ns.append ms)

/-- The children whose `field_name` equals the label, in order
(one group of `children_by_field`). -/
def Nodes.filterLabel : Nodes → String → Nodes
  | .nil, _ => .nil
  | .cons n ns, l =>
    if n.fname = l then .cons n (ns.filterLabel l) else ns.filterLabel l

/-- `next((c for c in children if c.field_name == l), None)`. -/
def Nodes.findLabel : Nodes → String → Option Node
  | .nil, _ => none
  | .cons n ns, l => if n.fname = l then some n else ns.findLabel l

/-- `children.remove(next_node)`: drop the first child with the label. -/
def Nodes.removeFirstLabel : Nodes → String → Nodes
  | .nil, _ => .nil
  | .cons n ns, l =>
    if n.fname = l then ns else .cons n (ns.removeFirstLabel l)

theorem filterLabel_sizeOf (ns : Nodes) (l : String) :
    sizeOf (ns.filterLabel l) ≤ sizeOf ns :=
  match ns with
  | .nil => by simp [Nodes.filterLabel]
  | .cons n ns => by
    have ih := filterLabel_sizeOf ns l
    by_cases h : n.fname = l <;> simp [Nodes.filterLabel, h] <;> omega

theorem Cfgs.sizeOf_pos (cs : Cfgs) : 0 < sizeOf cs := by
  cases cs <;> simp

theorem findLabel_sizeOf (ns : Nodes) (l : String) {nx : Node}
    (h : ns.findLabel l = some nx) : sizeOf nx < sizeOf ns :=
  match ns with
  | .nil => by simp [Nodes.findLabel] at h
  | .cons n ns => by
    by_cases hl : n.fname = l
    · simp [Nodes.findLabel, hl] at h
      subst h
      simp
      omega
    · simp [Nodes.findLabel, hl] at h
      have := findLabel_sizeOf ns l h
      simp
      omega

theorem removeFirstLabel_sizeOf (ns : Nodes) (l : String) {nx : Node}
    (h : ns.findLabel l = some nx) :
    sizeOf (ns.removeFirstLabel l) < sizeOf ns :=
  match ns with
  | .nil => by simp [Nodes.findLabel] at h
  | .cons n ns => by
    by_cases hl : n.fname = l
    · simp [Nodes.removeFirstLabel, hl]
      try omega
    · simp [Nodes.findLabel, hl] at h
      have := removeFirstLabel_sizeOf ns l h
      simp [Nodes.removeFirstLabel, hl]
      omega

mutual
/-- `config_to_tree(config, field_name)`: emit a node holding (a deep copy
of) the record; attach children for every list-gene field (`PARALLEL`
elements fan out as siblings, `CHAIN` elements thread as a linear path),
then one child per non-gene nested-model field. -/
def config_to_tree (c : Config) (fname : String) : Node :=
  match c with
  | .mk _ fs => .mk c fname ((geneChildren fs).append (subChildren fs))
termination_by sizeOf c

/-- The first loop of `config_to_tree`: children from `GeneList` entries
of `_genes`, in field order. -/
def geneChildren (fs : Flds) : Nodes :=
  match fs with
  | .nil => .nil
  | .cons (.mk name ann _ v) fs =>
    match ann, v with
    | some (.geneList gl), .lst cs =>
      match gl.gstruct with
      | .parallel => (parallelNodes cs name).append (geneChildren fs)
      | .chain =>
        match cs with
        | .nil => geneChildren fs
        | .cons c0 rest => .cons (chainNode c0 rest name) (geneChildren fs)
    | _, _ => geneChildren fs
termination_by sizeOf fs

def parallelNodes (cs : Cfgs) (name : String) : Nodes :=
  match cs with
  | .nil => .nil
  | .cons c cs => .cons (config_to_tree c name) (parallelNodes cs name)
termination_by sizeOf cs

/-- A chain element's node, with the next chain link appended as its last
child (`current_parent_node.add_child(child_node)`). -/
def chainNode (c0 : Config) (rest : Cfgs) (name : String) : Node :=
  have _h0 : 0 < sizeOf rest := Cfgs.sizeOf_pos rest
  let n0 := config_to_tree c0 name
  match rest with
  | .nil => n0
  | .cons c1 rest' =>
    .mk n0.data n0.fname (n0.children.append (.cons (chainNode c1 rest' name) .nil))
termination_by sizeOf c0 + sizeOf rest

/-- The second loop of `config_to_tree`: one child per non-gene field
holding a nested model. -/
def subChildren (fs : Flds) : Nodes :=
  match fs with
  | .nil => .nil
  | .cons (.mk name none _ (.sub c)) fs =>
    .cons (config_to_tree c name) (subChildren fs)
  | .cons _ fs => subChildren fs
termination_by sizeOf fs
end

mutual
/-- `tree_to_config(root)`: start from the node's record and overwrite
each field that has a like-labeled child group. -/
def tree_to_config (n : Node) : Config :=
  match n with
  | .mk (.mk tn fs) _ ch => .mk tn (rebuildFlds fs ch)
termination_by (sizeOf n, 0)

def rebuildFlds (fs : Flds) (ch : Nodes) : Flds :=
  match fs with
  | .nil => .nil
  | .cons (.mk name ann isInt v) fs =>
    let v' :=
      match hg : ch.filterLabel name with
      | .nil => v
      | .cons n0 rest =>
        have _h2 : 1 + sizeOf n0 + sizeOf rest ≤ sizeOf ch := by
          have h1 := filterLabel_sizeOf ch name
          rw [hg] at h1
          simpa using h1
        match ann with
        | some (.geneList gl) =>
          match gl.gstruct with
          | .parallel => Val.lst (mapTree (.cons n0 rest))
          | .chain => Val.lst (chainCollect n0 name)
        | _ => Val.sub (tree_to_config n0)
    .cons (.mk name ann isInt v') (rebuildFlds fs ch)
termination_by (sizeOf fs + sizeOf ch, 0)

def mapTree (ns : Nodes) : Cfgs :=
  match ns with
  | .nil => .nil
  | .cons n ns => .cons (tree_to_config n) (mapTree ns)
termination_by (sizeOf ns, 0)

/-- The `CHAIN` walk of `tree_to_config`: detach the next same-labeled
child, rebuild the current node without it, and continue from the
detached link. -/
def chainCollect (cur : Node) (label : String) : Cfgs :=
  match cur with
  | .mk d fn ch =>
    match hf : ch.findLabel label with
    | none => .cons (tree_to_config (.mk d fn ch)) .nil
    | some nx =>
      have _h1 : sizeOf (ch.removeFirstLabel label) < sizeOf ch :=
        removeFirstLabel_sizeOf ch label hf
      have _h2 : sizeOf nx < sizeOf ch := findLabel_sizeOf ch label hf
      .cons (tree_to_config (.mk d fn (ch.removeFirstLabel label)))
            (chainCollect nx label)
termination_by (sizeOf cur, 1)
end

/-! ## Well-formedness predicates

Decidable (Bool-valued) predicates used as theorem hypotheses.  They
express, over this value embedding, facts that pydantic's type system
guarantees for real genotypes: scalar genes sit on numeric fields, list
genes on tuples of models, field names are unique per record, and two
parents of one record type have identical field skeletons. -/

/-- The per-field bounds condition: a scalar-gene field holds a number
within its declared `[min_val, max_val]`. -/
def InBHead : Option Ann → Val → Bool
  | some (.gene g), .num x => decide (g.min_val ≤ x ∧ x ≤ g.max_val)
  | some (.gene _), _ => false
  | _, _ => true

mutual
/-- Every scalar-gene field (at any depth) holds a number within its
declared `[min_val, max_val]`. -/
def InBoundsC : Config → Bool
  | .mk _ fs => InBoundsF fs

def InBoundsF : Flds → Bool
  | .nil => true
  | .cons (.mk _ ann _ v) fs => InBHead ann v && InBoundsV v && InBoundsF fs

def InBoundsV : Val → Bool
  | .sub c => InBoundsC c
  | .lst cs => InBoundsL cs
  | _ => true

def InBoundsL : Cfgs → Bool
  | .nil => true
  | .cons c cs => InBoundsC c && InBoundsL cs
end

/-- The per-field integrality condition: a scalar-gene field declared
`int` holds an integer value. -/
def IntHead : Option Ann → Bool → Val → Bool
  | some (.gene _), isInt, .num x => !isInt || decide (x.den = 1)
  | _, _, _ => true

mutual
/-- Every scalar-gene field declared `int` (at any depth) holds an
integer value. -/
def IntOKC : Config → Bool
  | .mk _ fs => IntOKF fs

def IntOKF : Flds → Bool
  | .nil => true
  | .cons (.mk _ ann isInt v) fs => IntHead ann isInt v && IntOKV v && IntOKF fs

def IntOKV : Val → Bool
  | .sub c => IntOKC c
  | .lst cs => IntOKL cs
  | _ => true

def IntOKL : Cfgs → Bool
  | .nil => true
  | .cons c cs => IntOKC c && IntOKL cs
end

def Flds.names : Flds → List String
  | .nil => []
  | .cons f fs => f.name :: fs.names

mutual
/-- Field names are pairwise distinct in every record (pydantic:
`model_fields` is keyed by name), at every depth. -/
def DistinctC : Config → Bool
  | .mk _ fs => decide fs.names.Nodup && DistinctF fs

def DistinctF : Flds → Bool
  | .nil => true
  | .cons (.mk _ _ _ v) fs => DistinctV v && DistinctF fs

def DistinctV : Val → Bool
  | .sub c => DistinctC c
  | .lst cs => DistinctL cs
  | _ => true

def DistinctL : Cfgs → Bool
  | .nil => true
  | .cons c cs => DistinctC c && DistinctL cs
end

mutual
/-- Two genotypes are instances of one record type: same field names,
annotations and declared kinds in the same order, with shapes aligned
wherever `apply_crossover` recurses pairwise.  Elements of list-gene
fields are unconstrained (the crossover splices them wholesale). -/
def AlignedC : Config → Config → Bool
  | .mk _ fs, .mk _ gs => AlignedF fs gs

def AlignedF : Flds → Flds → Bool
  | .nil, .nil => true
  | .cons (.mk n1 a1 i1 v1) fs, .cons (.mk n2 a2 i2 v2) gs =>
    decide (n1 = n2) && decide (a1 = a2) && decide (i1 = i2) &&
    AlignedV a1 v1 v2 && AlignedF fs gs
  | _, _ => false

def AlignedV : Option Ann → Val → Val → Bool
  | some (.gene _), .num _, .num _ => true
  | some (.geneList _), .lst _, .lst _ => true
  | some (.geneList _), .rawLst _, .rawLst _ => true
  | none, .num _, .num _ => true
  | none, .raw _, .raw _ => true
  | none, .rawLst _, .rawLst _ => true
  | none, .sub c1, .sub c2 => AlignedC c1 c2
  | none, .lst cs1, .lst cs2 => AlignedZip cs1 cs2
  | _, _, _ => false

/-- Pairwise alignment over the overlapping prefix. -/
def AlignedZip : Cfgs → Cfgs → Bool
  | .cons c1 cs1, .cons c2 cs2 => AlignedC c1 c2 && AlignedZip cs1 cs2
  | _, _ => true
end

mutual
/-- The frame relation of claim C8: the new genotype has the same type
name, field names, annotations and declared kinds as the old one, and
every field without a gene annotation holds an unchanged value except for
changes inside its gene-annotated descendants; gene-annotated fields may
change freely. -/
def FrameC : Config → Config → Bool
  | .mk tn fs, .mk tn' fs' => decide (tn = tn') && FrameF fs fs'

def FrameF : Flds → Flds → Bool
  | .nil, .nil => true
  | .cons (.mk n a i v) fs, .cons (.mk n' a' i' v') fs' =>
    decide (n = n') && decide (a = a') && decide (i = i') &&
    FrameVal a v v' && FrameF fs fs'
  | _, _ => false

def FrameVal : Option Ann → Val → Val → Bool
  | some _, _, _ => true
  | none, .num x, .num y => decide (x = y)
  | none, .raw s, .raw t => decide (s = t)
  | none, .rawLst xs, .rawLst ys => decide (xs = ys)
  | none, .sub c, .sub c' => FrameC c c'
  | none, .lst cs, .lst cs' => FrameL cs cs'
  | none, _, _ => false

def FrameL : Cfgs → Cfgs → Bool
  | .nil, .nil => true
  | .cons c cs, .cons c' cs' => FrameC c c' && FrameL cs cs'
  | _, _ => false
end

/-- The pure value of the final `item_len`: the first non-zero block
length the loop meets (its running value, ignoring the error check). -/
def lensRun : ℕ → List ℕ → ℕ
  | L, [] => L
  | 0, l :: ls => lensRun l ls
  | L + 1, _ :: ls => lensRun (L + 1) ls

/-- Whether the `item_len` check passes: every block after the first
non-empty one has that first non-empty block's length (a run of empty
blocks before it keeps resetting the running value and is accepted). -/
def lensOK : ℕ → List ℕ → Bool
  | _, [] => true
  | 0, l :: ls => lensOK l ls
  | L + 1, l :: ls => decide (l = L + 1) && lensOK (L + 1) ls

mutual
/-- The length `flatten_genome` produces when it succeeds. -/
def flatLen : Config → ℕ
  | .mk _ fs => flatLenF fs

def flatLenFld : Fld → ℕ
  | .mk _ ann _ v =>
    match ann, v with
    | some (.gene _), _ => 1
    | some (.geneList gl), .lst cs =>
      1 + flatLenL cs + (gl.max_len - cs.length) * lensRun 0 (flatLensL cs)
    | some (.geneList _), .rawLst _ => 1
    | _, _ => 0

def flatLenF : Flds → ℕ
  | .nil => 0
  | .cons f fs => flatLenFld f + flatLenF fs

def flatLenL : Cfgs → ℕ
  | .nil => 0
  | .cons c cs => flatLen c + flatLenL cs

/-- The block lengths of a list-gene field's elements. -/
def flatLensL : Cfgs → List ℕ
  | .nil => []
  | .cons c cs => flatLen c :: flatLensL cs
end

mutual
/-- In the region `flatten_genome` visits (the root record and,
recursively, the elements of list-gene fields), every scalar-gene field
holds a number (`np.array(.., float32)` would otherwise fail). -/
def NumOKC : Config → Bool
  | .mk _ fs => NumOKF fs

def NumOKFld : Fld → Bool
  | .mk _ ann _ v =>
    match ann, v with
    | some (.gene _), .num _ => true
    | some (.gene _), _ => false
    | some (.geneList _), .lst cs => NumOKL cs
    | _, _ => true

def NumOKF : Flds → Bool
  | .nil => true
  | .cons f fs => NumOKFld f && NumOKF fs

def NumOKL : Cfgs → Bool
  | .nil => true
  | .cons c cs => NumOKC c && NumOKL cs
end

mutual
/-- In the visited region, every list-gene field passes the `item_len`
check: after any leading elements whose blocks are empty, all remaining
elements flatten to blocks of one common non-zero length. -/
def SibsOKC : Config → Bool
  | .mk _ fs => SibsOKF fs

def SibsOKFld : Fld → Bool
  | .mk _ ann _ v =>
    match ann, v with
    | some (.geneList _), .lst cs => SibsOKL cs && lensOK 0 (flatLensL cs)
    | _, _ => true

def SibsOKF : Flds → Bool
  | .nil => true
  | .cons f fs => SibsOKFld f && SibsOKF fs

def SibsOKL : Cfgs → Bool
  | .nil => true
  | .cons c cs => SibsOKC c && SibsOKL cs
end

/-! Predicates for the codec round trip (claim C3).  `parseCfg` reads the
element class of a list-gene field off the template's first element, so
the round-trip theorem assumes what pydantic's typing gives real
genotypes: within one list-gene field all elements are instances of one
class, i.e. they agree with the first element on names, annotations and
— recursively — on the schema of their own list-gene fields. -/

mutual
/-- `AgreeC s c`: parsing `c`'s flat encoding against schema `s` walks the
same gene fields: equal (name, ann) sequences, and each element of a
list-gene field of `c` agrees with the schema's first element (when the
schema's list is empty, the elements must flatten to empty blocks, i.e.
carry no gene fields at all). -/
def AgreeC : Config → Config → Bool
  | .mk _ fs, .mk _ gs => AgreeF fs gs

def AgreeF : Flds → Flds → Bool
  | .nil, .nil => true
  | .cons (.mk n1 a1 _ v1) fs, .cons (.mk n2 a2 _ v2) gs =>
    decide (n1 = n2) && decide (a1 = a2) && AgreeV a1 v1 v2 && AgreeF fs gs
  | _, _ => false

/-- The per-field agreement of a schema value with a data value: a
list-gene field's elements all agree with the schema list's first
element (or carry no genes at all when the schema list is empty). -/
def AgreeV : Option Ann → Val → Val → Bool
  | some (.geneList _), .lst ss, .lst cs =>
    (match ss.head? with
     | some s0 => AgreeL s0 cs
     | none => NoGenesL cs)
  | some (.geneList _), _, _ => false
  | _, _, _ => true

def AgreeL (s0 : Config) : Cfgs → Bool
  | .nil => true
  | .cons c cs => AgreeC s0 c && AgreeL s0 cs

/-- Every field is unannotated (the record contributes nothing to the
flat vector). -/
def NoGenesC : Config → Bool
  | .mk _ fs => NoGenesF fs

def NoGenesF : Flds → Bool
  | .nil => true
  | .cons (.mk _ ann _ _) fs => decide (ann = none) && NoGenesF fs

def NoGenesL : Cfgs → Bool
  | .nil => true
  | .cons c cs => NoGenesC c && NoGenesL cs
end

/-- A genotype agrees with itself as its own parsing schema: every
list-gene field's elements agree with the field's first element. -/
def Homog (c : Config) : Bool := AgreeC c c

mutual
/-- The sparse gene data of a genotype: what `_unflatten_recursive`
recovers from `flatten_genome`'s output. -/
def geneData : Config → UData
  | .mk _ fs => geneDataF fs

def geneDataF : Flds → UData
  | .nil => .nil
  | .cons (.mk name ann _ v) fs =>
    match ann, v with
    | some (.gene _), .num x => .cons name (.unum (some x)) (geneDataF fs)
    | some (.gene _), _ => .cons name (.unum none) (geneDataF fs)
    | some (.geneList _), .lst cs => .cons name (.ulist (geneDataL cs)) (geneDataF fs)
    | some (.geneList _), _ => .cons name (.ulist .nil) (geneDataF fs)
    | none, _ => geneDataF fs

def geneDataL : Cfgs → UDatas
  | .nil => .nil
  | .cons c cs => .cons (geneData c) (geneDataL cs)
end

/-- The `UVal` that `_unflatten_recursive` stores for one field of a
record, `none` for unannotated fields: the lookup view of `geneDataF`. -/
def geneEntry : Fld → Option UVal
  | .mk _ (some (.gene _)) _ (.num x) => some (.unum (some x))
  | .mk _ (some (.gene _)) _ _ => some (.unum none)
  | .mk _ (some (.geneList _)) _ (.lst cs) => some (.ulist (geneDataL cs))
  | .mk _ (some (.geneList _)) _ _ => some (.ulist .nil)
  | .mk _ none _ _ => none

def producesChild : Fld → Bool
  | .mk _ (some (.geneList _)) _ (.lst (.cons _ _)) => true
  | .mk _ none _ (.sub _) => true
  | _ => false

def noChildNamed (fs : Flds) (s : String) : Bool :=
  match fs with
  | .nil => true
  | .cons f fs => !(decide (f.name = s) && producesChild f) && noChildNamed fs s

mutual
/-- No element of a chain-structured list-gene field exposes a child edge
with the chain field's own label (otherwise `tree_to_config`'s chain walk
follows the element's own child instead of the next chain link). -/
def NoShadowC : Config → Bool
  | .mk _ fs => NoShadowF fs

def NoShadowF : Flds → Bool
  | .nil => true
  | .cons (.mk name ann _ v) fs =>
    (match ann, v with
     | some (.geneList gl), .lst cs =>
       NoShadowL cs &&
         (match gl.gstruct with
          | .chain => chainHeadsOK cs name
          | .parallel => true)
     | _, .sub c => NoShadowC c
     | _, .lst cs => NoShadowL cs
     | _, _ => true) && NoShadowF fs

def NoShadowL : Cfgs → Bool
  | .nil => true
  | .cons c cs => NoShadowC c && NoShadowL cs

def chainHeadsOK : Cfgs → String → Bool
  | .nil, _ => true
  | .cons (.mk _ fs) cs, s => noChildNamed fs s && chainHeadsOK cs s
end

mutual
/-- Every list-gene field (at any depth) holds a non-empty tuple of
models (claim C2's hypothesis). -/
def NonEmptyC : Config → Bool
  | .mk _ fs => NonEmptyF fs

def NonEmptyF : Flds → Bool
  | .nil => true
  | .cons (.mk _ ann _ v) fs =>
    (match ann, v with
     | some (.geneList _), .lst (.cons _ _) => true
     | some (.geneList _), _ => false
     | _, _ => true) && NonEmptyV v && NonEmptyF fs

def NonEmptyV : Val → Bool
  | .sub c => NonEmptyC c
  | .lst cs => NonEmptyL cs
  | _ => true

def NonEmptyL : Cfgs → Bool
  | .nil => true
  | .cons c cs => NonEmptyC c && NonEmptyL cs
end

def Flds.append : Flds → Flds → Flds
  | .nil, gs => gs
  | .cons f fs, gs => .cons f (fs.append gs)

def Flds.toList : Flds → List Fld
  | .nil => []
  | .cons f fs => f :: fs.toList

def Cfgs.toList : Cfgs → List Config
  | .nil => []
  | .cons c cs => c :: cs.toList

/-- `np.random.rand()` draws lie in `[0, 1)`: the property of a random
state whose rational stream models `rand` draws. -/
def rngUnit (r : Rng) : Bool :=
  r.qs.all (fun q => decide (0 ≤ q ∧ q < 1))

/-! ## Concrete example genotypes used by the claim theorems -/

/-- A segment-like record with no gene annotations. -/
def plainSeg : Config := .mk "S" (.cons (.mk "length" none false (.num 1)) .nil)

/-- A finger-like record whose only field is a chain list gene with one
plain element, `add_prob = 1`, `remove_prob = 0`, room to grow. -/
def fingerC1 : Config :=
  .mk "F" (.cons (.mk "segments"
    (some (.geneList ⟨.chain, 0, 4, 1, 0⟩)) false
    (.lst (.cons plainSeg .nil))) .nil)

/-- A record with one integral scalar-gene field valued `7`. -/
def intCfg : Config :=
  .mk "C" (.cons (.mk "n" (some (.gene ⟨1, 5, 10⟩)) true (.num 7)) .nil)

/-- Distinct leaf records for the list-crossover scenario. -/
def leafN (tag : String) (x : ℚ) : Config :=
  .mk tag (.cons (.mk "p" none false (.num x)) .nil)

def segA : Config := leafN "A1" 1
def segB : Config := leafN "A2" 2
def segC : Config := leafN "A3" 3
def segX : Config := leafN "B1" 11
def segY : Config := leafN "B2" 12

/-- Parent A's list `[a, b, c]` and parent B's list `[x, y]`. -/
def listA3 : Cfgs := .cons segA (.cons segB (.cons segC .nil))

def listB2 : Cfgs := .cons segX (.cons segY .nil)

def glC7 : GeneList := ⟨.parallel, 0, 5, 0, 0⟩

def fldC7 : Fld := .mk "xs" (some (.geneList glC7)) false (.lst listA3)

/-- An element with two scalar-gene fields flattening to `[4.0, 5.0]`. -/
def elem45 : Config :=
  .mk "E" (.cons (.mk "u" (some (.gene ⟨1, 0, 9⟩)) false (.num 4))
    (.cons (.mk "w" (some (.gene ⟨1, 0, 9⟩)) false (.num 5)) .nil))

def glC4 : GeneList := ⟨.parallel, 0, 3, 0, 0⟩

/-- A genotype with one list-gene field (`max_len = 3`) holding one
element that flattens to `[4.0, 5.0]`. -/
def cPad1 : Config :=
  .mk "R" (.cons (.mk "xs" (some (.geneList glC4)) false
    (.lst (.cons elem45 .nil))) .nil)

/-- The same schema with the list empty. -/
def cPad0 : Config :=
  .mk "R" (.cons (.mk "xs" (some (.geneList glC4)) false (.lst .nil)) .nil)

/-- An element whose own list-gene field holds one one-gene record:
flattens to `[1, 4, NaN]`. -/
def e1Hide : Config :=
  .mk "F" (.cons (.mk "ys" (some (.geneList ⟨.parallel, 0, 2, 0, 0⟩)) false
    (.lst (.cons (.mk "G" (.cons (.mk "u" (some (.gene ⟨1, 0, 9⟩)) false (.num 4)) .nil))
      .nil))) .nil)

/-- The same record type with the inner list empty: flattens to `[0]`. -/
def e2Hide : Config :=
  .mk "F" (.cons (.mk "ys" (some (.geneList ⟨.parallel, 0, 2, 0, 0⟩)) false
    (.lst .nil)) .nil)

/-- A genotype whose only field is a *non-gene* nested record holding a
list-gene field with mismatched siblings `e1Hide`, `e2Hide`. -/
def cHide : Config :=
  .mk "R" (.cons (.mk "base" none false
    (.sub (.mk "B" (.cons (.mk "xs" (some (.geneList ⟨.parallel, 0, 2, 0, 0⟩)) false
      (.lst (.cons e1Hide (.cons e2Hide .nil)))) .nil)))) .nil)

/-- A chain element whose record exposes a child edge labelled like the
chain field itself: field `f` is a non-gene nested record. -/
def shadowElem : Config :=
  .mk "E" (.cons (.mk "f" none false (.sub plainSeg)) .nil)

/-- A genotype with a chain list-gene field `f` of one element whose
element itself has a child-producing field named `f`. -/
def cShadow : Config :=
  .mk "R" (.cons (.mk "f" (some (.geneList ⟨.chain, 0, 4, 0, 0⟩)) false
    (.lst (.cons shadowElem .nil))) .nil)

/-- Siblings of one list-gene field with different flat block lengths
(`e1Hide` flattens to 3 entries, `e2Hide` to 1). -/
def cMis : Config :=
  .mk "R" (.cons (.mk "xs" (some (.geneList ⟨.parallel, 0, 2, 0, 0⟩)) false
    (.lst (.cons e1Hide (.cons e2Hide .nil)))) .nil)

/-- An element class with no gene-annotated fields: flattens to `[]`. -/
def e0Lead : Config :=
  .mk "E" (.cons (.mk "tag" none false (.raw "plain")) .nil)

/-- A one-gene element: flattens to `[4.0]`. -/
def e1Lead : Config :=
  .mk "F" (.cons (.mk "u" (some (.gene ⟨1, 0, 9⟩)) false (.num 4)) .nil)

/-- A list-gene field holding `e0Lead` then `e1Lead`: the sibling
elements flatten to blocks of different lengths 0 and 1. -/
def cLead : Config :=
  .mk "R" (.cons (.mk "xs" (some (.geneList ⟨.parallel, 0, 3, 0, 0⟩)) false
    (.lst (.cons e0Lead (.cons e1Lead .nil)))) .nil)

/-- A scalar-gene field holding `0.1`, which is not representable in
float32 (its denominator has the factor 5). -/
def cTenth : Config :=
  .mk "C" (.cons (.mk "n" (some (.gene ⟨1, 0, 1⟩)) false (.num (1 / 10))) .nil)

/-- A scalar-gene field with `mutation_std = 0` and current value inside
`[5, 10]` (claim C6's first scenario). -/
def zeroStdCfg : Config :=
  .mk "C" (.cons (.mk "n" (some (.gene ⟨0, 5, 10⟩)) false (.num 7)) .nil)

/-- A scalar-gene field with bounds `[0, 1]` and current value `0.9`
(claim C6's clamping scenario). -/
def clampCfg : Config :=
  .mk "C" (.cons (.mk "n" (some (.gene ⟨1, 0, 1⟩)) false (.num (9 / 10))) .nil)

/-! ## Shared list lemmas -/

theorem Cfgs.length_append (cs ds : Cfgs) :
    (cs.append ds).length = cs.length + ds.length :=
  match cs with
  | .nil => by simp [Cfgs.append, Cfgs.length]
  | .cons c cs => by
    simp [Cfgs.append, Cfgs.length, Cfgs.length_append cs ds]
    omega

theorem Cfgs.length_take (n : ℕ) (cs : Cfgs) :
    (Cfgs.take n cs).length = min n cs.length :=
  match n, cs with
  | 0, _ => by simp [Cfgs.take, Cfgs.length]
  | _ + 1, .nil => by simp [Cfgs.take, Cfgs.length]
  | n + 1, .cons c cs => by
    simp [Cfgs.take, Cfgs.length, Cfgs.length_take n cs]
    omega

theorem Cfgs.length_drop (n : ℕ) (cs : Cfgs) :
    (Cfgs.drop n cs).length = cs.length - n :=
  match n, cs with
  | 0, _ => by simp [Cfgs.drop]
  | _ + 1, .nil => by simp [Cfgs.drop, Cfgs.length]
  | n + 1, .cons c cs => by
    simp [Cfgs.drop, Cfgs.length, Cfgs.length_drop n cs]

theorem Cfgs.take_of_le (n : ℕ) (cs : Cfgs) (h : cs.length ≤ n) :
    Cfgs.take n cs = cs :=
  match n, cs with
  | 0, .nil => by simp [Cfgs.take]
  | _ + 1, .nil => by simp [Cfgs.take]
  | 0, .cons c cs => by simp [Cfgs.length] at h
  | n + 1, .cons c cs => by
    simp [Cfgs.length] at h
    simp [Cfgs.take, Cfgs.take_of_le n cs (by omega)]

theorem mutFlds_append (fs gs : Flds) (r : Rng) :
    mutFlds (fs.append gs) r
      = ((mutFlds fs r).1.append (mutFlds gs (mutFlds fs r).2).1,
         (mutFlds gs (mutFlds fs r).2).2) :=
  match fs with
  | .nil => by simp [Flds.append, mutFlds]
  | .cons f fs => by
    simp [Flds.append, mutFlds, mutFlds_append fs gs (mutFld f r).2]

/-! ## Claim theorems -/

/-- **C1** (code bug).  The structural list mutation of `apply_mutations`
(part B) computes an add/remove and stores the result, but the recursion
step (part C) rebuilds the field from the `current_value` read before
part B ran, so the edit never reaches the returned genotype.  On
`fingerC1` with `add_prob = 1`, draws `rand = 0 < 1` and `choice = 0`, the
add fires (`chromStep` returns a two-element list, and consumes the
integer draw) — yet `apply_mutations` returns the genotype unchanged,
where the claim (and the spec) promise the appended deep copy to be
present. -/
theorem C1_add_edit_discarded :
    (apply_mutations fingerC1 ⟨[0, 0], [0]⟩).1 = fingerC1 ∧
    (apply_mutations fingerC1 ⟨[0, 0], [0]⟩).2 = ⟨[], []⟩ ∧
    (chromStep ⟨.chain, 0, 4, 1, 0⟩ (.cons plainSeg .nil) ⟨[0, 0], [0]⟩).1.length = 2 := by
  refine ⟨by decide, by decide, by decide⟩

set_option maxHeartbeats 1000000 in
/-- **C6** (counterexample).  A scalar-gene field whose declared numeric
kind is `int` (`isInt = true`), value `7`, `mutation_std = 1`, bounds
`[5, 10]`, unit normal draw `3/10`: the claim says mutate rounds the
clamped result to the nearest integer (`7`), but `apply_mutations` never
rounds and returns `73/10`. -/
theorem C6_no_rounding_on_mutation :
    (apply_mutations intCfg ⟨[3 / 10], []⟩).1
      = .mk "C" (.cons (.mk "n" (some (.gene ⟨1, 5, 10⟩)) true (.num (73 / 10))) .nil) ∧
    (73 / 10 : ℚ) ≠ 7 := by
  constructor
  · simp only [intCfg, apply_mutations, mutFlds, mutFld, Rng.popQ]
    norm_num [clip, min_def, max_def]
  · norm_num

set_option maxHeartbeats 1000000 in
/-- **C6** (amended).  One call of `apply_mutations` sets every
scalar-gene field, wherever it sits among the record's fields, to
`clip(old + mutation_std * draw, min_val, max_val)` with no rounding,
regardless of the declared numeric kind.  In particular with
`mutation_std = 0` the field keeps its in-bounds value for every random
state, and with bounds `[0, 1]`, value `0.9` and noise draw `+5` the
result is exactly `1`. -/
theorem C6_scalar_mutation_formula :
    (∀ (tn : String) (pre post : Flds) (name : String) (g : Gene) (b : Bool)
        (x : ℚ) (r : Rng),
      (apply_mutations
          (.mk tn (pre.append (.cons (.mk name (some (.gene g)) b (.num x)) post))) r).1
        = .mk tn ((mutFlds pre r).1.append
            (.cons (.mk name (some (.gene g)) b
               (.num (clip (x + g.mutation_std * ((mutFlds pre r).2.popQ).1)
                 g.min_val g.max_val)))
              (mutFlds post ((mutFlds pre r).2.popQ).2).1))) ∧
    (∀ r : Rng, (apply_mutations zeroStdCfg r).1 = zeroStdCfg) ∧
    (apply_mutations clampCfg ⟨[5], []⟩).1
      = .mk "C" (.cons (.mk "n" (some (.gene ⟨1, 0, 1⟩)) false (.num 1)) .nil) := by
  refine ⟨?_, ?_, ?_⟩
  · intro tn pre post name g b x r
    simp only [apply_mutations, mutFlds_append, mutFlds, mutFld]
  · intro r
    simp only [zeroStdCfg, apply_mutations, mutFlds, mutFld]
    cases hq : r.popQ with
    | mk q r' => norm_num [clip, min_def, max_def]
  · simp only [clampCfg, apply_mutations, mutFlds, mutFld, Rng.popQ]
    norm_num [clip, min_def, max_def]

/-- **C7** (counterexample).  With parent A's list `[a, b, c]` and parent
B's `[x, y]`, a cut index of `min(lenA, lenB) = 2` would produce the
child list `[a, b]`; the claim's inclusive range `[0, 2]` promises that
outcome for some draw, but `np.random.randint(0, 2)` never returns `2`,
so no random state produces it. -/
theorem C7_cut_two_unreachable :
    ¬ ∃ r : Rng, (crossFld fldC7 (some (.lst listB2)) r).1
        = .mk "xs" (some (.geneList glC7)) false (.lst (.cons segA (.cons segB .nil))) := by
  rintro ⟨r, h⟩
  simp only [crossFld, fldC7] at h
  rw [if_pos (by decide : (listA3.length > 0 ∧ listB2.length > 0))] at h
  cases hp : r.popN with
  | mk k r1 =>
    rw [hp] at h
    rw [show min listA3.length listB2.length = 2 from rfl] at h
    rcases Nat.mod_two_eq_zero_or_one k with hk | hk <;>
      rw [hk] at h <;>
      dsimp only at h <;>
      exact absurd h (by decide)

/-- **C7** (amended).  In record-aligned crossover, for every list-gene
field where both parents' lists are non-empty, the cut index equals the
integer draw reduced modulo `min(lenA, lenB)` — every value of the
half-open range `[0, min(lenA, lenB))` is attainable and no other — and
the child's list is parent A's prefix of that length concatenated with
parent B's suffix from that index, truncated to `max_len`.  (Forcing cut
index `1` on `[a,b,c]` and `[x,y]` yields `[a,y]`: see the witness.) -/
theorem C7_one_point_crossover :
    (∀ (name : String) (gl : GeneList) (b : Bool) (as bs : Cfgs) (r : Rng),
        0 < as.length → 0 < bs.length →
        ∃ cut, cut = (r.popN).1 % min as.length bs.length ∧
          cut < min as.length bs.length ∧
          crossFld (.mk name (some (.geneList gl)) b (.lst as)) (some (.lst bs)) r
            = (.mk name (some (.geneList gl)) b
                (.lst (Cfgs.take gl.max_len ((Cfgs.take cut as).append (Cfgs.drop cut bs)))),
               (r.popN).2)) ∧
    (∀ (m j : ℕ), j < m → ∃ r : Rng, (r.popN).1 % m = j) := by
  constructor
  · intro name gl b as bs r h1 h2
    refine ⟨(r.popN).1 % min as.length bs.length, rfl, Nat.mod_lt _ (by omega), ?_⟩
    simp only [crossFld]
    rw [if_pos ⟨h1, h2⟩]
    cases hp : r.popN with
    | mk k r1 =>
      dsimp only
      set cut := k % min as.length bs.length with hcut
      set nl := (Cfgs.take cut as).append (Cfgs.drop cut bs) with hnl
      by_cases hl : nl.length > gl.max_len
      · rw [if_pos hl]
      · rw [if_neg hl, Cfgs.take_of_le gl.max_len nl (by omega)]
  · intro m j hj
    exact ⟨⟨[], [j]⟩, by simp [Rng.popN, Nat.mod_eq_of_lt hj]⟩

/-- **C7** (witness).  The amended theorem at the claim's concrete
scenario: parents `[a,b,c]` and `[x,y]`, integer draw `1` forcing cut
index `1`. -/
theorem C7_one_point_crossover_witness :
    ∃ cut, cut = ((⟨[], [1]⟩ : Rng).popN).1 % min listA3.length listB2.length ∧
      cut < min listA3.length listB2.length ∧
      crossFld (.mk "xs" (some (.geneList glC7)) false (.lst listA3))
          (some (.lst listB2)) ⟨[], [1]⟩
        = (.mk "xs" (some (.geneList glC7)) false
            (.lst (Cfgs.take glC7.max_len
              ((Cfgs.take cut listA3).append (Cfgs.drop cut listB2)))),
           ((⟨[], [1]⟩ : Rng).popN).2) :=
  C7_one_point_crossover.1 "xs" glC7 false listA3 listB2 ⟨[], [1]⟩
    (by decide) (by decide)

/-- **C10** (implicit behaviour of the list-gene crossover branch).
If either parent's list is empty the child keeps parent A's list
unchanged and no randomness is consumed; when both are non-empty the
child's list length is exactly `min(lenB, max_len)`, whatever the cut
draw and parent A's length. -/
theorem C10_child_list_length :
    ∀ (name : String) (gl : GeneList) (b : Bool) (as bs : Cfgs) (r : Rng),
      ((as.length = 0 ∨ bs.length = 0) →
        crossFld (.mk name (some (.geneList gl)) b (.lst as)) (some (.lst bs)) r
          = (.mk name (some (.geneList gl)) b (.lst as), r)) ∧
      (0 < as.length → 0 < bs.length →
        ∃ nl, (crossFld (.mk name (some (.geneList gl)) b (.lst as)) (some (.lst bs)) r).1
            = .mk name (some (.geneList gl)) b (.lst nl)
          ∧ nl.length = min bs.length gl.max_len) := by
  intro name gl b as bs r
  constructor
  · intro h0
    simp only [crossFld]
    rw [if_neg (by omega)]
  · intro h1 h2
    simp only [crossFld]
    rw [if_pos ⟨h1, h2⟩]
    cases hp : r.popN with
    | mk k r1 =>
      dsimp only
      set cut := k % min as.length bs.length with hcut
      have hlt : cut < min as.length bs.length := Nat.mod_lt _ (by omega)
      set nl := (Cfgs.take cut as).append (Cfgs.drop cut bs) with hnl
      have hlen : nl.length = bs.length := by
        rw [hnl, Cfgs.length_append, Cfgs.length_take, Cfgs.length_drop]
        omega
      by_cases hl : nl.length > gl.max_len
      · rw [if_pos hl]
        refine ⟨_, rfl, ?_⟩
        rw [Cfgs.length_take, hlen]
        omega
      · rw [if_neg hl]
        refine ⟨_, rfl, ?_⟩
        rw [hlen]
        omega

/-- **C10** (witness).  Parent A `[a,b,c]`, parent B `[x,y]`,
`max_len = 5`: the child list has length `min(2, 5) = 2`. -/
theorem C10_child_list_length_witness :
    ∃ nl, (crossFld (.mk "xs" (some (.geneList glC7)) false (.lst listA3))
          (some (.lst listB2)) ⟨[], [7]⟩).1
        = .mk "xs" (some (.geneList glC7)) false (.lst nl)
      ∧ nl.length = min listB2.length glC7.max_len :=
  (C10_child_list_length "xs" glC7 false listA3 listB2 ⟨[], [7]⟩).2
    (by decide) (by decide)

theorem flatItems_cons (c : Config) (cs : Cfgs) :
    flatItems (.cons c cs)
      = match flatten_genome c, flatItems cs with
        | .ok h, .ok t => .ok (h :: t)
        | .error e, _ => .error e
        | .ok _, .error e => .error e := by
  cases h1 : flatten_genome c <;> cases h2 : flatItems cs <;>
    simp only [flatItems, h1, h2] <;> rfl

theorem flatItems_length (cs : Cfgs) {blocks : List (List (Option ℚ))}
    (h : flatItems cs = .ok blocks) : blocks.length = cs.length :=
  match cs with
  | .nil => by
    rw [show flatItems .nil = .ok [] from rfl] at h
    cases h
    rfl
  | .cons c cs => by
    rw [flatItems_cons] at h
    cases hc : flatten_genome c with
    | error e => rw [hc] at h; cases h
    | ok v =>
      rw [hc] at h
      cases ht : flatItems cs with
      | error e => rw [ht] at h; cases h
      | ok t =>
        rw [ht] at h
        cases h
        have := flatItems_length cs ht
        simp [Cfgs.length, this]

theorem flatFld_geneList (name : String) (gl : GeneList) (b : Bool) (cs : Cfgs) :
    flatFld (.mk name (some (.geneList gl)) b (.lst cs))
      = match flatItems cs with
        | .error e => .error e
        | .ok blocks =>
          match runLens 0 (blocks.map List.length) with
          | .error e => .error e
          | .ok L =>
            .ok (some (cs.length : ℚ) ::
              (blocks.flatten ++
                (if cs.length > 0 then
                  List.replicate ((gl.max_len - cs.length) * L) (none : Option ℚ)
                 else []))) := by
  cases h : flatItems cs with
  | error e =>
    simp only [flatFld, h]
    rfl
  | ok blocks =>
    have hstep : flatFld (.mk name (some (.geneList gl)) b (.lst cs))
        = (runLens 0 (blocks.map List.length)).bind fun L =>
            .ok (some (cs.length : ℚ) :: (blocks.flatten ++
              (if cs.length > 0 then
                List.replicate ((gl.max_len - cs.length) * L) (none : Option ℚ)
               else []))) := by
      simp only [flatFld, h]
      rfl
    cases h2 : runLens 0 (blocks.map List.length) <;>
      rw [hstep, h2] <;> simp [h2, Except.bind]

theorem runLens_const (L : ℕ) (ls : List ℕ) :
    (∀ l ∈ ls, l = L) → runLens L ls = .ok L := by
  induction ls with
  | nil =>
    intro _
    cases L <;> rfl
  | cons l ls ih =>
    intro h
    rw [h l (by simp)]
    cases L with
    | zero =>
      show runLens 0 ls = .ok 0
      exact ih fun x hx => h x (by simp [hx])
    | succ n =>
      show (if n + 1 = n + 1 then runLens (n + 1) ls else .error ()) = .ok (n + 1)
      rw [if_pos rfl]
      exact ih fun x hx => h x (by simp [hx])

theorem runLens_zero_const (L : ℕ) (ls : List ℕ)
    (h : ∀ l ∈ ls, l = L) (hne : ls ≠ []) : runLens 0 ls = .ok L := by
  match ls with
  | [] => exact absurd rfl hne
  | l :: ls =>
    rw [show runLens 0 (l :: ls) = runLens l ls from rfl, h l (by simp)]
    exact runLens_const L ls fun x hx => h x (by simp [hx])

theorem sum_map_length_const {α : Type} (l : List (List α)) (L : ℕ)
    (h : ∀ bl ∈ l, bl.length = L) : (l.map List.length).sum = l.length * L := by
  induction l with
  | nil => simp
  | cons bl l ih =>
    simp only [List.map_cons, List.sum_cons, List.length_cons]
    rw [h bl (by simp), ih (fun x hx => h x (by simp [hx]))]
    ring

/-- **C4** (counterexample).  Claim C4 says a list-gene field's
contribution is always `1 + max_len * L` entries, "including length 0",
and hence that same-schema genotypes flatten to equal-length vectors.
With `max_len = 3` and per-element block length `2`, the one-element
genotype contributes 7 entries, but the empty-list genotype of the same
schema contributes a single entry (only the count): `flatten_genome`
skips the sentinel padding entirely when the list is empty. -/
theorem C4_empty_list_breaks_fixed_width :
    flatten_genome cPad1 = .ok [some 1, some 4, some 5, none, none, none, none] ∧
    flatten_genome cPad0 = .ok [some 0] ∧
    [some 1, some 4, some 5, (none : Option ℚ), none, none, none].length = 7 ∧
    [some (0 : ℚ)].length = 1 := by
  exact ⟨rfl, rfl, rfl, rfl⟩

/-- **C4** (amended).  A *non-empty* list-gene field whose elements
flatten to consistent blocks of length `L`, with its length within
`max_len`, contributes exactly `1 + max_len * L` entries (the count, the
element blocks, then NaN sentinel padding), independent of its actual
length; an *empty* list-gene field contributes only the count entry
`[0]`. -/
theorem C4_field_contribution :
    (∀ (name : String) (gl : GeneList) (b : Bool) (cs : Cfgs)
        (blocks : List (List (Option ℚ))) (L : ℕ),
      flatItems cs = .ok blocks →
      (∀ bl ∈ blocks, bl.length = L) →
      cs ≠ .nil →
      cs.length ≤ gl.max_len →
      flatFld (.mk name (some (.geneList gl)) b (.lst cs))
          = .ok (some (cs.length : ℚ) ::
              (blocks.flatten ++ List.replicate ((gl.max_len - cs.length) * L) none)) ∧
        (some (cs.length : ℚ) ::
              (blocks.flatten ++ List.replicate ((gl.max_len - cs.length) * L) none)).length
          = 1 + gl.max_len * L) ∧
    (∀ (name : String) (gl : GeneList) (b : Bool),
      flatFld (.mk name (some (.geneList gl)) b (.lst .nil)) = .ok [some 0]) := by
  constructor
  · intro name gl b cs blocks L hb hall hne hcap
    have hlen := flatItems_length cs hb
    have hpos : 0 < cs.length := by
      cases cs with
      | nil => exact absurd rfl hne
      | cons c cs => simp [Cfgs.length]
    have hrun : runLens 0 (blocks.map List.length) = .ok L := by
      refine runLens_zero_const L _ (fun l hl => ?_) (fun hc => ?_)
      · obtain ⟨bl, hbl, rfl⟩ := List.mem_map.1 hl
        exact hall bl hbl
      · rw [List.map_eq_nil_iff] at hc
        rw [hc] at hlen
        simp only [List.length_nil] at hlen
        omega
    constructor
    · rw [flatFld_geneList, hb]
      simp only [hrun]
      rw [if_pos hpos]
    · simp only [List.length_cons, List.length_append, List.length_replicate,
        List.length_flatten]
      rw [sum_map_length_const blocks L hall, hlen]
      have : cs.length * L + (gl.max_len - cs.length) * L = gl.max_len * L := by
        rw [← Nat.add_mul]
        congr 1
        omega
      omega
  · intro name gl b
    rfl


theorem runLens_eq (L : ℕ) (ls : List ℕ) :
    runLens L ls = if lensOK L ls then .ok (lensRun L ls) else .error () := by
  match L, ls with
  | L, [] => cases L <;> rfl
  | 0, l :: ls => exact runLens_eq l ls
  | L + 1, l :: ls =>
    have ih := runLens_eq (L + 1) ls
    simp only [runLens, lensOK, lensRun]
    by_cases h : l = L + 1
    · simp [h, ih]
    · simp [h]

theorem sum_flatLens (cs : Cfgs) : (flatLensL cs).sum = flatLenL cs := by
  match cs with
  | .nil => rfl
  | .cons c cs =>
    simp only [flatLensL, flatLenL, List.sum_cons, sum_flatLens cs]

mutual
/-- `flatten_genome` succeeds exactly on genotypes whose visited
scalar-gene fields are numeric and whose list-gene fields pass the
running `item_len` check, and then the vector has length `flatLen`. -/
theorem flat_spec_config (c : Config) :
    match flatten_genome c with
    | .ok v => (NumOKC c && SibsOKC c) = true ∧ v.length = flatLen c
    | .error _ => (NumOKC c && SibsOKC c) = false := by
  match c with
  | .mk tn fs =>
    have h := flat_spec_flds fs
    simpa only [flatten_genome, NumOKC, SibsOKC, flatLen] using h
termination_by (sizeOf c, 0)

theorem flat_spec_flds (fs : Flds) :
    match flatFlds fs with
    | .ok v => (NumOKF fs && SibsOKF fs) = true ∧ v.length = flatLenF fs
    | .error _ => (NumOKF fs && SibsOKF fs) = false := by
  match fs with
  | .nil => exact ⟨rfl, rfl⟩
  | .cons f fs =>
    have hf := flat_spec_fld f
    have hfs := flat_spec_flds fs
    cases h1 : flatFld f with
    | error e =>
      simp only [h1] at hf
      have hred : flatFlds (.cons f fs) = .error e := by
        simp only [flatFlds, h1]
        rfl
      rw [hred]
      simp only [NumOKF, SibsOKF]
      cases hx : NumOKFld f <;> cases hy : SibsOKFld f <;> simp_all
    | ok a =>
      simp only [h1] at hf
      cases h2 : flatFlds fs with
      | error e =>
        simp only [h2] at hfs
        have hred : flatFlds (.cons f fs) = .error e := by
          simp only [flatFlds, h1, h2]
          rfl
        rw [hred]
        simp only [NumOKF, SibsOKF]
        cases hx : NumOKF fs <;> cases hy : SibsOKF fs <;> simp_all
      | ok bv =>
        simp only [h2] at hfs
        have hred : flatFlds (.cons f fs) = .ok (a ++ bv) := by
          simp only [flatFlds, h1, h2]
          rfl
        rw [hred]
        simp only [NumOKF, SibsOKF, flatLenF]
        refine ⟨?_, ?_⟩
        · cases hx : NumOKFld f <;> cases hy : SibsOKFld f <;> simp_all
        · simp only [List.length_append, hf.2, hfs.2]
termination_by (sizeOf fs, 0)

theorem flat_spec_fld (f : Fld) :
    match flatFld f with
    | .ok v => (NumOKFld f && SibsOKFld f) = true ∧ v.length = flatLenFld f
    | .error _ => (NumOKFld f && SibsOKFld f) = false := by
  match f with
  | .mk n (some (.gene g)) i (.num x) => exact ⟨rfl, rfl⟩
  | .mk n (some (.gene g)) i (.raw s) => exact rfl
  | .mk n (some (.gene g)) i (.rawLst xs) => exact rfl
  | .mk n (some (.gene g)) i (.sub c) => exact rfl
  | .mk n (some (.gene g)) i (.lst cs) => exact rfl
  | .mk n (some (.geneList gl)) i (.num x) => exact ⟨rfl, rfl⟩
  | .mk n (some (.geneList gl)) i (.raw s) => exact ⟨rfl, rfl⟩
  | .mk n (some (.geneList gl)) i (.rawLst xs) => exact ⟨rfl, rfl⟩
  | .mk n (some (.geneList gl)) i (.sub c) => exact ⟨rfl, rfl⟩
  | .mk n none i v => exact ⟨rfl, rfl⟩
  | .mk n (some (.geneList gl)) i (.lst cs) =>
    have hitems := flat_spec_items cs
    cases h1 : flatItems cs with
    | error e =>
      simp only [h1] at hitems
      have hred : flatFld (.mk n (some (.geneList gl)) i (.lst cs)) = .error e := by
        simp only [flatFld, h1]
        rfl
      rw [hred]
      simp only [NumOKFld, SibsOKFld]
      cases hx : NumOKL cs <;> cases hy : SibsOKL cs <;> simp_all
    | ok blocks =>
      simp only [h1] at hitems
      obtain ⟨hok, hlens⟩ := hitems
      have hstep : flatFld (.mk n (some (.geneList gl)) i (.lst cs))
          = (runLens 0 (blocks.map List.length)).bind fun L =>
              .ok (some (cs.length : ℚ) :: (blocks.flatten ++
                (if cs.length > 0 then
                  List.replicate ((gl.max_len - cs.length) * L) (none : Option ℚ)
                 else []))) := by
        simp only [flatFld, h1]
        rfl
      rw [hlens, runLens_eq] at hstep
      by_cases hlok : lensOK 0 (flatLensL cs) = true
      · rw [if_pos hlok] at hstep
        have hred : flatFld (.mk n (some (.geneList gl)) i (.lst cs))
            = .ok (some (cs.length : ℚ) :: (blocks.flatten ++
                (if cs.length > 0 then
                  List.replicate
                    ((gl.max_len - cs.length) * lensRun 0 (flatLensL cs))
                    (none : Option ℚ)
                 else []))) := hstep
        rw [hred]
        refine ⟨?_, ?_⟩
        · simp only [NumOKFld, SibsOKFld, hlok]
          simp only [Bool.and_eq_true] at hok ⊢
          exact ⟨hok.1, hok.2, trivial⟩
        · simp only [List.length_cons, List.length_append, List.length_flatten,
            flatLenFld]
          rw [hlens, sum_flatLens]
          by_cases hpos : cs.length > 0
          · rw [if_pos hpos]
            simp only [List.length_replicate]
            omega
          · have hnil : cs = .nil := by
              cases cs with
              | nil => rfl
              | cons c cs => simp [Cfgs.length] at hpos
            rw [if_neg hpos, hnil]
            simp [flatLensL, flatLenL, lensRun, Cfgs.length]
      · rw [if_neg hlok] at hstep
        have hred : flatFld (.mk n (some (.geneList gl)) i (.lst cs))
            = .error () := hstep
        rw [hred]
        simp only [NumOKFld, SibsOKFld]
        simp only [Bool.not_eq_true] at hlok
        cases hx : NumOKL cs <;> cases hy : SibsOKL cs <;> simp_all
termination_by (sizeOf f, 0)

theorem flat_spec_items (cs : Cfgs) :
    match flatItems cs with
    | .ok blocks => (NumOKL cs && SibsOKL cs) = true ∧
        blocks.map List.length = flatLensL cs
    | .error _ => (NumOKL cs && SibsOKL cs) = false := by
  match cs with
  | .nil => exact ⟨rfl, rfl⟩
  | .cons c cs =>
    have hc := flat_spec_config c
    have hcs := flat_spec_items cs
    cases h1 : flatten_genome c with
    | error e =>
      simp only [h1] at hc
      have hred : flatItems (.cons c cs) = .error e := by
        simp only [flatItems, h1]
        rfl
      rw [hred]
      simp only [NumOKL, SibsOKL]
      cases hx : NumOKC c <;> cases hy : SibsOKC c <;> simp_all
    | ok v =>
      simp only [h1] at hc
      cases h2 : flatItems cs with
      | error e =>
        simp only [h2] at hcs
        have hred : flatItems (.cons c cs) = .error e := by
          simp only [flatItems, h1, h2]
          rfl
        rw [hred]
        simp only [NumOKL, SibsOKL]
        cases hx : NumOKL cs <;> cases hy : SibsOKL cs <;> simp_all
      | ok blocks =>
        simp only [h2] at hcs
        have hred : flatItems (.cons c cs) = .ok (v :: blocks) := by
          simp only [flatItems, h1, h2]
          rfl
        rw [hred]
        refine ⟨?_, ?_⟩
        · simp only [NumOKL, SibsOKL]
          cases hx : NumOKC c <;> cases hy : SibsOKC c <;> simp_all
        · simp only [List.map_cons, hc.2, hcs.2, flatLensL]
termination_by (sizeOf cs, 1)
end

/-- **C9** (amended).  `flatten_genome` returns a vector exactly when
every visited scalar-gene field holds a number (`NumOKC`) and every
visited list-gene field passes the running `item_len` check (`SibsOKC`):
after any leading elements whose blocks are empty, all remaining
elements' blocks must share the first non-empty block's length.  A
sibling block that differs from a preceding non-empty block's length
raises `ValueError`, and a successful run never truncates or pads a
mismatched element — but an empty block followed by a non-empty one is
accepted (the zero running length is overwritten), so the claim's
"fails whenever two sibling elements flatten to blocks of different
lengths" is too strong. -/
theorem C9_flatten_error_characterisation (c : Config) :
    (flatten_genome c).isOk = true ↔ (NumOKC c && SibsOKC c) = true := by
  have h := flat_spec_config c
  cases hf : flatten_genome c with
  | ok v =>
    simp only [hf] at h
    simp [Except.isOk, Except.toBool, h.1]
  | error e =>
    simp only [hf] at h
    simp [Except.isOk, Except.toBool, h]

/-- **C9** (counterexample).  In `cLead` the two siblings of its
list-gene field flatten to blocks of lengths 0 and 1 — different — yet
`flatten_genome` returns a vector: the zero-length first block leaves
the running `item_len` at 0, which the second block's length then
overwrites without any comparison. -/
theorem C9_different_lengths_no_error :
    flatten_genome e0Lead = .ok [] ∧
    flatten_genome e1Lead = .ok [some 4] ∧
    ([] : List (Option ℚ)).length ≠ [some (4 : ℚ)].length ∧
    flatten_genome cLead = .ok [some 2, some 4, none] :=
  ⟨rfl, rfl, by decide, rfl⟩

/-- **C2**.  Claim C2 asserts the tree round trip for every genotype
whose list-gene fields are non-empty, but `tree_to_config`'s chain walk
treats *any* like-labeled child as the next chain link.  In `cShadow`
the chain list-gene field `f` holds one element that itself has a
non-gene nested-model field also named `f`; `config_to_tree` emits that
nested model as a child edge labelled `f`, and the chain walk then
follows it as if it were the next chain link, so the rebuilt list has
two elements (the element, then its nested model) instead of one.
`cShadow` is a legal genotype — distinct field names, all list-gene
fields non-empty — so the round-trip law of the claim fails on it. -/
theorem C2_chain_shadow_breaks_roundtrip :
    NonEmptyC cShadow = true ∧ DistinctC cShadow = true ∧
    tree_to_config (config_to_tree cShadow "")
      = .mk "R" (.cons (.mk "f" (some (.geneList ⟨.chain, 0, 4, 0, 0⟩)) false
          (.lst (.cons shadowElem (.cons plainSeg .nil)))) .nil) ∧
    tree_to_config (config_to_tree cShadow "") ≠ cShadow := by
  have hval : tree_to_config (config_to_tree cShadow "")
      = .mk "R" (.cons (.mk "f" (some (.geneList ⟨.chain, 0, 4, 0, 0⟩)) false
          (.lst (.cons shadowElem (.cons plainSeg .nil)))) .nil) := by
    simp [cShadow, shadowElem, plainSeg, config_to_tree, geneChildren,
      parallelNodes, chainNode, subChildren, tree_to_config, rebuildFlds,
      mapTree, chainCollect, Nodes.append, Nodes.filterLabel, Nodes.findLabel,
      Nodes.removeFirstLabel, Node.fname, Node.data, Node.children]
  refine ⟨by decide, by decide, hval, ?_⟩
  rw [hval]
  decide


theorem name_mem_of_mem (fs : Flds) (f : Fld) (h : f ∈ fs.toList) :
    f.name ∈ fs.names :=
  match fs with
  | .nil => by simp [Flds.toList] at h
  | .cons g gs => by
    simp only [Flds.toList, List.mem_cons] at h
    rcases h with h | h
    · simp [Flds.names, h]
    · simp only [Flds.names, List.mem_cons]
      exact Or.inr (name_mem_of_mem gs f h)

theorem pyRound_natCast (n : ℕ) : pyRound ((n : ℕ) : ℚ) = (n : ℤ) := by
  simp [pyRound]

theorem pyRound_toNat (n : ℕ) : (pyRound ((n : ℕ) : ℚ)).toNat = n := by
  rw [pyRound_natCast]
  simp

theorem pyRound_intCast (k : ℤ) : pyRound ((k : ℤ) : ℚ) = k := by
  simp [pyRound]

theorem quant32_natCast (n : ℕ) (h1 : 0 < n) (h2 : n < 2 ^ 24) :
    quant32 ((n : ℕ) : ℚ) = n := by
  have hx0 : ((n : ℚ)) ≠ 0 := Nat.cast_ne_zero.mpr (by omega)
  have hxpos : (0 : ℚ) < n := by exact_mod_cast h1
  simp only [quant32, if_neg hx0, if_neg (not_lt.mpr hxpos.le),
    abs_of_pos hxpos, one_mul]
  have hlog : Int.log 2 ((n : ℚ)) = Nat.log 2 n := Int.log_natCast 2 n
  have hlognn : (0 : ℤ) ≤ Int.log 2 ((n : ℚ)) := by
    rw [hlog]
    exact Int.natCast_nonneg _
  have hle : Int.log 2 ((n : ℚ)) ≤ 23 := by
    rw [hlog]
    have := Nat.log_lt_of_lt_pow (b := 2) (by omega : n ≠ 0) h2
    omega
  have hmax : max (Int.log 2 ((n : ℚ))) (-126) = Int.log 2 ((n : ℚ)) :=
    max_eq_left (by omega)
  rw [hmax]
  obtain ⟨k, hk⟩ : ∃ k : ℕ, (23 : ℤ) - Int.log 2 ((n : ℚ)) = k :=
    ⟨((23 : ℤ) - Int.log 2 ((n : ℚ))).toNat, (Int.toNat_of_nonneg (by omega)).symm⟩
  rw [hk, zpow_natCast]
  have hcast : (n : ℚ) * 2 ^ k = ((n * 2 ^ k : ℕ) : ℚ) := by
    push_cast
    ring
  rw [hcast, pyRound_natCast]
  have hexp : Int.log 2 ((n : ℚ)) - 23 = -(k : ℤ) := by omega
  rw [hexp, zpow_neg, zpow_natCast]
  push_cast
  exact mul_inv_cancel_right₀ (by positivity) _

theorem quant32_dyadic (x : ℚ) :
    ∃ m k : ℤ, quant32 x = (m : ℚ) * (2 : ℚ) ^ k := by
  by_cases hx : x = 0
  · exact ⟨0, 0, by simp [quant32, hx]⟩
  · by_cases hneg : x < 0
    · exact ⟨-(pyRound (|x| * 2 ^ (23 - max (Int.log 2 |x|) (-126)))),
        max (Int.log 2 |x|) (-126) - 23, by
          simp only [quant32, if_neg hx, if_pos hneg]
          push_cast
          ring⟩
    · exact ⟨pyRound (|x| * 2 ^ (23 - max (Int.log 2 |x|) (-126))),
        max (Int.log 2 |x|) (-126) - 23, by
          simp only [quant32, if_neg hx, if_neg hneg, one_mul]⟩

theorem dyadic_ne_tenth (m k : ℤ) : (m : ℚ) * (2 : ℚ) ^ k ≠ 1 / 10 := by
  intro h
  rcases le_or_lt 0 k with hk | hk
  · lift k to ℕ using hk
    rw [zpow_natCast] at h
    have h1 : ((10 * m * 2 ^ k : ℤ) : ℚ) = 1 := by
      push_cast
      linarith
    have h2 : (10 * m * 2 ^ k : ℤ) = 1 := by exact_mod_cast h1
    have h3 : (10 : ℤ) * (m * 2 ^ k) = 1 := by linarith
    obtain ⟨t, ht⟩ : ∃ t : ℤ, m * 2 ^ k = t := ⟨_, rfl⟩
    rw [ht] at h3
    omega
  · obtain ⟨j, rfl⟩ : ∃ j : ℕ, k = -(j : ℤ) := ⟨(-k).toNat, by omega⟩
    rw [zpow_neg, zpow_natCast] at h
    have hpow : (0 : ℚ) < (2 : ℚ) ^ j := by positivity
    have h1 : ((10 * m : ℤ) : ℚ) = ((2 ^ j : ℤ) : ℚ) := by
      push_cast
      field_simp at h
      linarith
    have h2 : (10 * m : ℤ) = 2 ^ j := by exact_mod_cast h1
    have h5 : (5 : ℤ) ∣ 2 ^ j := ⟨2 * m, by linarith⟩
    have hp : Prime (5 : ℤ) := by norm_num
    have := hp.dvd_of_dvd_pow h5
    norm_num at this

theorem quant32_tenth_ne : quant32 (1 / 10) ≠ 1 / 10 := by
  obtain ⟨m, k, hmk⟩ := quant32_dyadic (1 / 10)
  rw [hmk]
  exact dyadic_ne_tenth m k

theorem lensRun_pos (L : ℕ) (ls : List ℕ) : lensRun (L + 1) ls = L + 1 := by
  induction ls with
  | nil => rfl
  | cons l ls ih => exact ih

theorem runLens_ok_imp (ls : List ℕ) (L : ℕ)
    (h : runLens 0 ls = .ok L) : L = lensRun 0 ls := by
  rw [runLens_eq] at h
  by_cases hk : lensOK 0 ls = true
  · rw [if_pos hk] at h
    cases h
    rfl
  · rw [if_neg hk] at h
    cases h

theorem lookup_geneDataF_not_mem (fs : Flds) (n : String)
    (h : ¬ n ∈ fs.names) : lookupU (geneDataF fs) n = none := by
  match fs with
  | .nil => rfl
  | .cons (.mk name ann i v) fs =>
    simp only [Flds.names, Fld.name, List.mem_cons, not_or] at h
    have ih := lookup_geneDataF_not_mem fs n h.2
    have hne : ¬ (name = n) := fun hc => h.1 hc.symm
    cases ann with
    | none => simpa [geneDataF] using ih
    | some a =>
      cases a with
      | gene g => cases v <;> simp [geneDataF, lookupU, hne, ih]
      | geneList gl => cases v <;> simp [geneDataF, lookupU, hne, ih]

theorem lookup_geneDataF (fs : Flds) (hnd : fs.names.Nodup) :
    ∀ f ∈ fs.toList, lookupU (geneDataF fs) f.name = geneEntry f := by
  match fs with
  | .nil =>
    intro f hf
    simp [Flds.toList] at hf
  | .cons (.mk name ann i v) fs =>
    simp only [Flds.names, Fld.name, List.nodup_cons] at hnd
    intro f hf
    simp only [Flds.toList, List.mem_cons] at hf
    cases hf with
    | inl heq =>
      subst heq
      have hnone := lookup_geneDataF_not_mem fs name hnd.1
      cases ann with
      | none => simpa [geneDataF, geneEntry, Fld.name] using hnone
      | some a =>
        cases a with
        | gene g => cases v <;> simp [geneDataF, geneEntry, lookupU, Fld.name]
        | geneList gl => cases v <;> simp [geneDataF, geneEntry, lookupU, Fld.name]
    | inr hmem =>
      have ih := lookup_geneDataF fs hnd.2 f hmem
      have hne : ¬ (name = f.name) := by
        intro hc
        exact hnd.1 (hc ▸ name_mem_of_mem fs f hmem)
      cases ann with
      | none => simpa [geneDataF] using ih
      | some a =>
        cases a with
        | gene g => cases v <;> simp [geneDataF, lookupU, hne, ih]
        | geneList gl => cases v <;> simp [geneDataF, lookupU, hne, ih]

theorem nogenes_flat_flds (fs : Flds) (h : NoGenesF fs = true) :
    flatFlds fs = .ok [] ∧ geneDataF fs = .nil := by
  match fs with
  | .nil => exact ⟨rfl, rfl⟩
  | .cons (.mk name ann i v) fs =>
    simp only [NoGenesF, Bool.and_eq_true, decide_eq_true_eq] at h
    obtain ⟨h1, h2⟩ := h
    have ih := nogenes_flat_flds fs h2
    subst h1
    constructor
    · have h1 : flatFld (.mk name none i v) = .ok [] := rfl
      simp only [flatFlds, h1, ih.1]
      rfl
    · simpa [geneDataF] using ih.2
termination_by sizeOf fs

theorem nogenes_flat_config (c : Config) (h : NoGenesC c = true) :
    flatten_genome c = .ok [] ∧ geneData c = .nil := by
  match c with
  | .mk tn fs =>
    have hf := nogenes_flat_flds fs (by simpa [NoGenesC] using h)
    exact ⟨hf.1, by simpa [geneData] using hf.2⟩

theorem mergeFlds_nil (fs : Flds) : mergeFlds fs .nil = some fs := by
  match fs with
  | .nil => simp [mergeFlds]
  | .cons (.mk n a i v) fs => simp [mergeFlds, lookupU, mergeFlds_nil fs]

theorem mergeCfg_nil (c : Config) : mergeCfg c .nil = some c := by
  match c with
  | .mk tn fs => simp [mergeCfg, mergeFlds_nil fs]

theorem flatFlds_cons_inv {f : Fld} {fs : Flds} {v : List (Option ℚ)}
    (h : flatFlds (.cons f fs) = .ok v) :
    ∃ a b, flatFld f = .ok a ∧ flatFlds fs = .ok b ∧ v = a ++ b := by
  cases h1 : flatFld f with
  | error e =>
    rw [show flatFlds (.cons f fs)
        = (flatFld f).bind fun a => (flatFlds fs).bind fun b => .ok (a ++ b)
      from by simp only [flatFlds]; rfl, h1] at h
    cases h
  | ok a =>
    rw [show flatFlds (.cons f fs)
        = (flatFld f).bind fun a => (flatFlds fs).bind fun b => .ok (a ++ b)
      from by simp only [flatFlds]; rfl, h1] at h
    cases h2 : flatFlds fs with
    | error e =>
      rw [h2] at h
      cases h
    | ok b =>
      rw [h2] at h
      simp only [Except.bind] at h
      cases h
      exact ⟨a, b, rfl, rfl, rfl⟩

theorem flatItems_cons_inv {c : Config} {cs : Cfgs}
    {blocks : List (List (Option ℚ))}
    (h : flatItems (.cons c cs) = .ok blocks) :
    ∃ a bs, flatten_genome c = .ok a ∧ flatItems cs = .ok bs ∧
      blocks = a :: bs := by
  rw [flatItems_cons] at h
  cases h1 : flatten_genome c with
  | error e =>
    rw [h1] at h
    cases h
  | ok a =>
    rw [h1] at h
    cases h2 : flatItems cs with
    | error e =>
      rw [h2] at h
      cases h
    | ok bs =>
      rw [h2] at h
      cases h
      exact ⟨a, bs, rfl, rfl, rfl⟩

mutual
/-- Merging a genotype's own sparse gene data back into it is the
identity: each gene field receives exactly its own value, each list-gene
field merges elementwise with equal lengths, and unannotated fields are
untouched. -/
theorem merge_geneData_config (s c : Config) (hag : AgreeC s c = true)
    (hnum : NumOKC c = true) (hdis : DistinctC c = true) :
    mergeCfg c (geneData c) = some c := by
  match s, c with
  | .mk sn ss, .mk tn fs =>
    simp only [AgreeC] at hag
    simp only [NumOKC] at hnum
    simp only [DistinctC, Bool.and_eq_true, decide_eq_true_eq] at hdis
    have h := merge_geneData_flds ss fs (geneDataF fs) hag hnum hdis.2
      (lookup_geneDataF fs hdis.1)
    simp [mergeCfg, geneData, h]
termination_by (sizeOf c, 0)

theorem merge_geneData_flds (sfs dfs : Flds) (u : UData)
    (hag : AgreeF sfs dfs = true) (hnum : NumOKF dfs = true)
    (hdis : DistinctF dfs = true)
    (hlk : ∀ f ∈ dfs.toList, lookupU u f.name = geneEntry f) :
    mergeFlds dfs u = some dfs := by
  match sfs, dfs with
  | .nil, .nil => simp [mergeFlds]
  | .nil, .cons (.mk n a i v) dfs => simp [AgreeF] at hag
  | .cons (.mk sn sa si sv) sfs, .nil => simp [AgreeF] at hag
  | .cons (.mk sn sa si sv) sfs, .cons (.mk n a i v) dfs =>
    simp only [AgreeF, Bool.and_eq_true, decide_eq_true_eq] at hag
    obtain ⟨⟨⟨hn, ha⟩, hmatch⟩, hagrest⟩ := hag
    subst hn
    subst ha
    simp only [NumOKF, Bool.and_eq_true] at hnum
    simp only [DistinctF, Bool.and_eq_true] at hdis
    have ih := merge_geneData_flds sfs dfs u hagrest hnum.2 hdis.2
      (fun f hf => hlk f (by simp [Flds.toList, hf]))
    cases sa with
    | none =>
      have hlk1 : lookupU u sn = none := by
        simpa [geneEntry, Fld.name] using
          hlk (.mk sn none i v) (by simp [Flds.toList])
      simp only [mergeFlds, ih]
      split
      · rfl
      · rename_i uv huv
        rw [hlk1] at huv
        cases huv
    | some ax =>
      cases ax with
      | gene g =>
        cases v with
        | num x =>
          have hlk1 : lookupU u sn = some (.unum (some x)) := by
            simpa [geneEntry, Fld.name] using
              hlk (.mk sn (some (.gene g)) i (.num x)) (by simp [Flds.toList])
          simp only [mergeFlds, ih]
          split
          · rename_i hnone
            rw [hlk1] at hnone
          · rename_i uv huv
            rw [hlk1] at huv
            cases huv
            simp [mergeVal]
        | raw str => exact absurd hnum.1 (by simp [NumOKFld])
        | rawLst xs => exact absurd hnum.1 (by simp [NumOKFld])
        | sub cc => exact absurd hnum.1 (by simp [NumOKFld])
        | lst cc => exact absurd hnum.1 (by simp [NumOKFld])
      | geneList gl =>
        cases sv <;> cases v <;> try simp [AgreeV] at hmatch
        case lst.lst ss0 cs =>
          have hnl : NumOKL cs = true := by simpa [NumOKFld] using hnum.1
          have hdl : DistinctL cs = true := by simpa [DistinctV] using hdis.1
          have hml : mergeList cs.head? cs (geneDataL cs) = some cs := by
            cases hh : ss0.head? with
            | some s0 =>
              rw [hh] at hmatch
              exact merge_geneData_list (some s0) cs.head? cs
                (by simpa using hmatch) hnl hdl
            | none =>
              rw [hh] at hmatch
              exact merge_geneData_list none cs.head? cs
                (by simpa using hmatch) hnl hdl
          have hlk1 : lookupU u sn = some (.ulist (geneDataL cs)) := by
            simpa [geneEntry, Fld.name] using
              hlk (.mk sn (some (.geneList gl)) i (.lst cs)) (by simp [Flds.toList])
          simp only [mergeFlds, ih]
          split
          · rename_i hnone
            rw [hlk1] at hnone
          · rename_i uv huv
            rw [hlk1] at huv
            cases huv
            simp [mergeVal, hml]
termination_by (sizeOf dfs, 0)

theorem merge_geneData_list (s? : Option Config) (t0 : Option Config) (cs : Cfgs)
    (hag : s?.elim (NoGenesL cs) (fun s0 => AgreeL s0 cs) = true)
    (hnum : NumOKL cs = true) (hdis : DistinctL cs = true) :
    mergeList t0 cs (geneDataL cs) = some cs := by
  match cs with
  | .nil => simp [geneDataL, mergeList]
  | .cons c cs =>
    simp only [NumOKL, Bool.and_eq_true] at hnum
    simp only [DistinctL, Bool.and_eq_true] at hdis
    have hc : mergeCfg c (geneData c) = some c := by
      cases s? with
      | some s0 =>
        simp only [Option.elim, AgreeL, Bool.and_eq_true] at hag
        exact merge_geneData_config s0 c hag.1 hnum.1 hdis.1
      | none =>
        simp only [Option.elim, NoGenesL, Bool.and_eq_true] at hag
        have hng := nogenes_flat_config c hag.1
        rw [hng.2]
        exact mergeCfg_nil c
    have ih : mergeList t0 cs (geneDataL cs) = some cs := by
      cases s? with
      | some s0 =>
        simp only [Option.elim, AgreeL, Bool.and_eq_true] at hag
        exact merge_geneData_list (some s0) t0 cs (by simpa using hag.2) hnum.2 hdis.2
      | none =>
        simp only [Option.elim, NoGenesL, Bool.and_eq_true] at hag
        exact merge_geneData_list none t0 cs (by simpa using hag.2) hnum.2 hdis.2
    simp [geneDataL, mergeList, hc, ih]
termination_by (sizeOf cs, 1)
end

mutual
/-- Parsing a genotype's own flat encoding against an agreeing schema
consumes exactly that encoding and recovers the genotype's sparse gene
data, leaving the remainder of the vector untouched. -/
theorem parse_flat_config (s c : Config) (v rest : List (Option ℚ))
    (hag : AgreeC s c = true) (hok : flatten_genome c = .ok v) :
    parseCfg s (v ++ rest) = (geneData c, rest) := by
  match s, c with
  | .mk sn sfs, .mk tn dfs =>
    simp only [AgreeC] at hag
    have h := parse_flat_flds sfs dfs v rest hag hok
    simpa [parseCfg, geneData] using h
termination_by (sizeOf c, 0)

theorem parse_flat_flds (sfs dfs : Flds) (v rest : List (Option ℚ))
    (hag : AgreeF sfs dfs = true) (hok : flatFlds dfs = .ok v) :
    parseFlds sfs (v ++ rest) = (geneDataF dfs, rest) := by
  match sfs, dfs with
  | .nil, .nil =>
    rw [show flatFlds .nil = (.ok [] : Except Unit (List (Option ℚ))) from rfl] at hok
    cases hok
    simp [parseFlds, geneDataF]
  | .nil, .cons (.mk n a i v0) dfs => simp [AgreeF] at hag
  | .cons (.mk sn sa si sv) sfs, .nil => simp [AgreeF] at hag
  | .cons (.mk sn sa si sv) sfs, .cons (.mk n a i v0) dfs =>
    obtain ⟨av, bv, hf, hfs, rfl⟩ := flatFlds_cons_inv hok
    simp only [AgreeF, Bool.and_eq_true, decide_eq_true_eq] at hag
    obtain ⟨⟨⟨hn, ha⟩, hmatch⟩, hagrest⟩ := hag
    subst hn
    subst ha
    have ih := parse_flat_flds sfs dfs bv rest hagrest hfs
    cases sa with
    | none =>
      rw [show flatFld (.mk sn none i v0)
          = (.ok [] : Except Unit (List (Option ℚ))) from rfl] at hf
      cases hf
      simpa [parseFlds, geneDataF] using ih
    | some ax =>
      cases ax with
      | gene g =>
        cases v0 with
        | num x =>
          rw [show flatFld (.mk sn (some (.gene g)) i (.num x))
              = (.ok [some x] : Except Unit (List (Option ℚ))) from rfl] at hf
          cases hf
          simp only [List.cons_append, List.nil_append]
          simp [parseFlds, popV, geneDataF, ih]
        | raw s1 =>
          rw [show flatFld (.mk sn (some (.gene g)) i (.raw s1))
              = (.error () : Except Unit (List (Option ℚ))) from rfl] at hf
          cases hf
        | rawLst xs =>
          rw [show flatFld (.mk sn (some (.gene g)) i (.rawLst xs))
              = (.error () : Except Unit (List (Option ℚ))) from rfl] at hf
          cases hf
        | sub cc =>
          rw [show flatFld (.mk sn (some (.gene g)) i (.sub cc))
              = (.error () : Except Unit (List (Option ℚ))) from rfl] at hf
          cases hf
        | lst cc =>
          rw [show flatFld (.mk sn (some (.gene g)) i (.lst cc))
              = (.error () : Except Unit (List (Option ℚ))) from rfl] at hf
          cases hf
      | geneList gl =>
        cases sv <;> cases v0 <;> try simp [AgreeV] at hmatch
        case lst.lst ss0 cs =>
          rw [flatFld_geneList] at hf
          cases hit : flatItems cs with
          | error e =>
            simp only [hit] at hf
            cases hf
          | ok blocks =>
            simp only [hit] at hf
            cases hrl : runLens 0 (blocks.map List.length) with
            | error e =>
              simp only [hrl] at hf
              cases hf
            | ok L =>
              simp only [hrl] at hf
              cases hf
              have hLr : L = lensRun 0 (blocks.map List.length) :=
                runLens_ok_imp _ _ hrl
              subst hLr
              have hpi : parseItems ss0.head? cs.length
                  (blocks.flatten ++
                    ((if cs.length > 0 then
                        List.replicate
                          ((gl.max_len - cs.length) *
                            lensRun 0 (blocks.map List.length))
                          (none : Option ℚ)
                      else []) ++ (bv ++ rest)))
                  = (geneDataL cs,
                     (if cs.length > 0 then
                        List.replicate
                          ((gl.max_len - cs.length) *
                            lensRun 0 (blocks.map List.length))
                          (none : Option ℚ)
                      else []) ++ (bv ++ rest),
                     lensRun 0 (blocks.map List.length)) := by
                cases hh : ss0.head? with
                | some s0 =>
                  rw [hh] at hmatch
                  exact parse_flat_items (some s0) cs blocks _
                    (by simpa using hmatch) hit
                | none =>
                  rw [hh] at hmatch
                  exact parse_flat_items none cs blocks _
                    (by simpa using hmatch) hit
              simp only [List.cons_append, List.append_assoc]
              simp only [parseFlds, popV, Option.getD_some, Val.itemSchema,
                pyRound_toNat, hpi]
              by_cases hpos : cs.length > 0
              · simp only [if_pos hpos]
                rw [List.drop_left' (List.length_replicate _ _)]
                simp [geneDataF, ih]
              · simp only [if_neg hpos]
                simp only [List.nil_append]
                simp [geneDataF, ih]
termination_by (sizeOf dfs, 0)

theorem parse_flat_items (s? : Option Config) (cs : Cfgs)
    (blocks : List (List (Option ℚ))) (rest : List (Option ℚ))
    (hag : s?.elim (NoGenesL cs) (fun s0 => AgreeL s0 cs) = true)
    (hok : flatItems cs = .ok blocks) :
    parseItems s? cs.length (blocks.flatten ++ rest)
      = (geneDataL cs, rest, lensRun 0 (blocks.map List.length)) := by
  match cs with
  | .nil =>
    rw [show flatItems .nil
        = (.ok [] : Except Unit (List (List (Option ℚ)))) from rfl] at hok
    cases hok
    simp [parseItems, geneDataL, Cfgs.length, lensRun]
  | .cons c cs =>
    obtain ⟨a, bs, hc, hcs, rfl⟩ := flatItems_cons_inv hok
    cases s? with
    | some s0 =>
      simp only [Option.elim, AgreeL, Bool.and_eq_true] at hag
      have hparse := parse_flat_config s0 c a (bs.flatten ++ rest) hag.1 hc
      have ih := parse_flat_items (some s0) cs bs rest (by simpa using hag.2) hcs
      simp only [Cfgs.length, List.flatten_cons, List.append_assoc, geneDataL,
        List.map_cons]
      simp only [parseItems, hparse, ih, List.length_append, Nat.add_sub_cancel]
      cases hal : a.length with
      | zero => simp [lensRun]
      | succ k => simp [lensRun, lensRun_pos]
    | none =>
      simp only [Option.elim, NoGenesL, Bool.and_eq_true] at hag
      have hng := nogenes_flat_config c hag.1
      rw [hng.1] at hc
      cases hc
      have ih := parse_flat_items none cs bs rest (by simpa using hag.2) hcs
      simp only [Cfgs.length, List.flatten_cons, List.append_assoc, geneDataL,
        List.map_cons, List.length_nil, List.nil_append]
      rw [hng.2]
      simp only [parseItems, ih, Nat.sub_self]
      simp [lensRun]
termination_by (sizeOf cs, 1)
end

/-- **C3** (amended).  The codec round trip holds exactly when the flat
encoding is unchanged by the `float32` cast: for every genotype with
distinct field names per record (`DistinctC`, what pydantic's
name-keyed `model_fields` gives) and class-homogeneous list-gene
elements (`Homog`; `_unflatten_recursive` parses every element against
`__args__[0]`) on which `flatten_genome` assembles a vector all of whose
entries are `float32` fixed points, the closing cast leaves the vector
unchanged — `flatten32` returns it as is — and unflattening it with the
genotype as template reproduces the genotype exactly: the parser
consumes precisely the encoding, recovering the sparse gene data, and
`partial_update` merges that data back as the identity.  In general the
cast quantises every entry and the round trip returns the quantised
values instead (the counterexample shows this for gene value `0.1`), so
the claim's unconditional exact equality fails. -/
theorem C3_codec_roundtrip (c : Config) (v : List (Option ℚ))
    (hhom : Homog c = true) (hdis : DistinctC c = true)
    (hok : flatten_genome c = .ok v)
    (hfix : List.map (Option.map quant32) v = v) :
    flatten32 c = .ok v ∧ unflatten_genome v c = some c := by
  refine ⟨by simp [flatten32, hok, hfix, Except.map], ?_⟩
  have hhom' : AgreeC c c = true := hhom
  have hnum : NumOKC c = true := by
    have h := flat_spec_config c
    simp only [hok] at h
    have := h.1
    simp only [Bool.and_eq_true] at this
    exact this.1
  have hparse := parse_flat_config c c v [] hhom' hok
  rw [List.append_nil] at hparse
  have hmerge := merge_geneData_config c c hhom' hnum hdis
  simp [unflatten_genome, hparse, hmerge]

/-- **C3** (counterexample).  With gene value `0.1` the `float32` cast
changes the single vector entry — every float32 value is a dyadic
rational `m·2^k`, and `1/10` is not — so the round trip through
`flatten32` returns the quantised value in place of `0.1`, not the
original genotype: the claim's exact equality fails. -/
theorem C3_float32_cast_breaks_roundtrip :
    flatten32 cTenth = .ok [some (quant32 (1 / 10))] ∧
    quant32 (1 / 10) ≠ 1 / 10 ∧
    unflatten_genome [some (quant32 (1 / 10))] cTenth
      = some (.mk "C" (.cons (.mk "n" (some (.gene ⟨1, 0, 1⟩)) false
          (.num (quant32 (1 / 10)))) .nil)) ∧
    unflatten_genome [some (quant32 (1 / 10))] cTenth ≠ some cTenth := by
  have hunf : unflatten_genome [some (quant32 (1 / 10))] cTenth
      = some (.mk "C" (.cons (.mk "n" (some (.gene ⟨1, 0, 1⟩)) false
          (.num (quant32 (1 / 10)))) .nil)) := by
    simp [unflatten_genome, cTenth, parseCfg, parseFlds, popV, mergeCfg,
      mergeFlds, lookupU, mergeVal]
  have hflat0 : flatten_genome cTenth = .ok [some (1 / 10)] := rfl
  refine ⟨by simp [flatten32, hflat0, Except.map], quant32_tenth_ne, hunf, ?_⟩
  rw [hunf]
  intro hcontra
  simp [cTenth] at hcontra
  exact quant32_tenth_ne (by simpa [one_div] using hcontra)

theorem C3_codec_roundtrip_witness :
    flatten32 cPad1 = .ok [some 1, some 4, some 5, none, none, none, none] ∧
    unflatten_genome [some 1, some 4, some 5, none, none, none, none] cPad1
      = some cPad1 :=
  C3_codec_roundtrip cPad1 _
    (by simp [Homog, cPad1, elem45, AgreeC, AgreeF, AgreeV, AgreeL,
      Cfgs.head?])
    (by decide) rfl
    (by
      have q1 : quant32 (1 : ℚ) = 1 := by
        have h := quant32_natCast 1 (by norm_num) (by norm_num)
        simpa using h
      have q4 : quant32 (4 : ℚ) = 4 := by
        have h := quant32_natCast 4 (by norm_num) (by norm_num)
        simpa using h
      have q5 : quant32 (5 : ℚ) = 5 := by
        have h := quant32_natCast 5 (by norm_num) (by norm_num)
        simpa using h
      simp [q1, q4, q5])

mutual
theorem frame_mut_config (c : Config) (r : Rng) :
    FrameC c (apply_mutations c r).1 = true := by
  cases c with
  | mk tn fs =>
    simp only [apply_mutations, FrameC]
    simp [frame_mut_flds fs r]
termination_by (sizeOf c, 0)

theorem frame_mut_flds (fs : Flds) (r : Rng) :
    FrameF fs (mutFlds fs r).1 = true := by
  cases fs with
  | nil => simp only [mutFlds]; simp [FrameF]
  | cons f fs =>
    cases f with
    | mk n a i v =>
      simp only [mutFlds]
      obtain ⟨v', r', hf, hfv⟩ := frame_mut_fld n a i v r
      rw [hf]
      simp only [FrameF]
      simp [hfv, frame_mut_flds fs r']
termination_by (sizeOf fs, 0)

theorem frame_mut_fld (name : String) (ann : Option Ann) (isInt : Bool)
    (v : Val) (r : Rng) :
    ∃ v' r', mutFld (.mk name ann isInt v) r = (.mk name ann isInt v', r') ∧
      FrameVal ann v v' = true := by
  cases v with
  | num x =>
    match ann with
    | some (.gene g) =>
      exact ⟨.num (clip (x + g.mutation_std * (r.popQ).1) g.min_val g.max_val),
        (r.popQ).2, rfl, by simp [FrameVal]⟩
    | some (.geneList gl) => exact ⟨.num x, r, rfl, by simp [FrameVal]⟩
    | none => exact ⟨.num x, r, rfl, by simp [FrameVal]⟩
  | raw s =>
    match ann with
    | some (.gene g) => exact ⟨.raw s, r, rfl, by simp [FrameVal]⟩
    | some (.geneList gl) => exact ⟨.raw s, r, rfl, by simp [FrameVal]⟩
    | none => exact ⟨.raw s, r, rfl, by simp [FrameVal]⟩
  | rawLst xs =>
    match ann with
    | some (.gene g) => exact ⟨.rawLst xs, r, rfl, by simp [FrameVal]⟩
    | some (.geneList gl) =>
      exact ⟨.rawLst xs, (chromStepQ gl xs r).2, rfl, by simp [FrameVal]⟩
    | none => exact ⟨.rawLst xs, r, rfl, by simp [FrameVal]⟩
  | sub c =>
    have hc := frame_mut_config c r
    match ann with
    | some (.gene g) =>
      exact ⟨.sub (apply_mutations c r).1, (apply_mutations c r).2, rfl,
        by simp [FrameVal]⟩
    | some (.geneList gl) =>
      exact ⟨.sub (apply_mutations c r).1, (apply_mutations c r).2, rfl,
        by simp [FrameVal]⟩
    | none =>
      exact ⟨.sub (apply_mutations c r).1, (apply_mutations c r).2, rfl,
        by simpa [FrameVal] using hc⟩
  | lst cs =>
    match ann with
    | some (.gene g) =>
      exact ⟨.lst (mutCfgs cs r).1, (mutCfgs cs r).2, rfl, by simp [FrameVal]⟩
    | some (.geneList gl) =>
      exact ⟨.lst (mutCfgs cs (chromStep gl cs r).2).1,
        (mutCfgs cs (chromStep gl cs r).2).2, rfl, by simp [FrameVal]⟩
    | none =>
      exact ⟨.lst (mutCfgs cs r).1, (mutCfgs cs r).2, rfl,
        by simpa [FrameVal] using frame_mut_list cs r⟩
termination_by (sizeOf v, 1)

theorem frame_mut_list (cs : Cfgs) (r : Rng) :
    FrameL cs (mutCfgs cs r).1 = true := by
  cases cs with
  | nil => simp only [mutCfgs]; simp [FrameL]
  | cons c cs =>
    simp only [mutCfgs, FrameL]
    simp [frame_mut_config c r, frame_mut_list cs (apply_mutations c r).2]
termination_by (sizeOf cs, 0)
end

/-! Helper lemmas for the bounds claims. -/

theorem clip_bounds (x lo hi : ℚ) (h : lo ≤ hi) :
    lo ≤ clip x lo hi ∧ clip x lo hi ≤ hi :=
  ⟨le_min (le_max_right x lo) h, min_le_right _ _⟩

theorem popQ_unit (r : Rng) (h : rngUnit r = true) :
    0 ≤ (r.popQ).1 ∧ (r.popQ).1 < 1 ∧ rngUnit (r.popQ).2 = true := by
  cases r with
  | mk qs ns =>
    cases qs with
    | nil =>
      refine ⟨le_refl 0, by norm_num [Rng.popQ], h⟩
    | cons q qs =>
      simp only [rngUnit, List.all_cons, Bool.and_eq_true, decide_eq_true_eq] at h
      exact ⟨h.1.1, h.1.2, by
        simp only [rngUnit, Rng.popQ]
        exact h.2⟩

theorem popN_unit (r : Rng) (h : rngUnit r = true) :
    rngUnit (r.popN).2 = true := by
  cases r with
  | mk qs ns => cases ns <;> exact h

theorem blend_bounds (alpha xa xb lo hi : ℚ) (h0 : 0 ≤ alpha) (h1 : alpha ≤ 1)
    (ha1 : lo ≤ xa) (ha2 : xa ≤ hi) (hb1 : lo ≤ xb) (hb2 : xb ≤ hi) :
    lo ≤ alpha * xa + (1 - alpha) * xb ∧ alpha * xa + (1 - alpha) * xb ≤ hi := by
  constructor <;> nlinarith

theorem pyRound_bounds (m M : ℤ) (y : ℚ) (h1 : (m : ℚ) ≤ y) (h2 : y ≤ (M : ℚ)) :
    m ≤ pyRound y ∧ pyRound y ≤ M := by
  have hfm : m ≤ ⌊y⌋ := Int.le_floor.mpr h1
  have hfM : ⌊y⌋ ≤ M := by
    calc ⌊y⌋ ≤ ⌊(M : ℚ)⌋ := Int.floor_le_floor h2
    _ = M := Int.floor_intCast M
  have hkey : ¬ (y - ⌊y⌋ < 1 / 2) → ⌊y⌋ + 1 ≤ M := by
    intro hd
    rcases lt_or_eq_of_le hfM with hlt | heq
    · omega
    · exfalso
      apply hd
      have hy : y ≤ ((⌊y⌋ : ℤ) : ℚ) := by
        rw [heq]
        exact h2
      have hy2 : (0 : ℚ) ≤ y - ⌊y⌋ := by
        have := Int.floor_le y
        linarith
      linarith
  simp only [pyRound]
  by_cases hd1 : y - ⌊y⌋ < 1 / 2
  · rw [if_pos hd1]
    exact ⟨hfm, hfM⟩
  · rw [if_neg hd1]
    have hstep := hkey hd1
    by_cases hd2 : 1 / 2 < y - ⌊y⌋
    · rw [if_pos hd2]
      omega
    · rw [if_neg hd2]
      by_cases he : 2 ∣ ⌊y⌋
      · rw [if_pos he]
        exact ⟨hfm, hfM⟩
      · rw [if_neg he]
        omega

/-! Bounds preservation of `apply_mutations` (the mutate half of C5). -/

mutual
theorem mut_inb_config (c : Config) (r : Rng) (h : InBoundsC c = true) :
    InBoundsC (apply_mutations c r).1 = true := by
  cases c with
  | mk tn fs =>
    simp only [apply_mutations, InBoundsC] at h ⊢
    exact mut_inb_flds fs r h
termination_by (sizeOf c, 0)

theorem mut_inb_flds (fs : Flds) (r : Rng) (h : InBoundsF fs = true) :
    InBoundsF (mutFlds fs r).1 = true := by
  cases fs with
  | nil => simpa only [mutFlds] using h
  | cons f fs =>
    cases f with
    | mk n a i v =>
      simp only [InBoundsF, Bool.and_eq_true] at h
      obtain ⟨⟨hh, hv⟩, ht⟩ := h
      simp only [mutFlds]
      obtain ⟨v', r', hf, hfv⟩ := mut_inb_fld n a i v r (by simp [hh, hv])
      rw [hf]
      simp only [InBoundsF, Bool.and_eq_true] at hfv ⊢
      exact ⟨hfv, mut_inb_flds fs r' ht⟩
termination_by (sizeOf fs, 0)

theorem mut_inb_fld (name : String) (ann : Option Ann) (isInt : Bool)
    (v : Val) (r : Rng) (h : (InBHead ann v && InBoundsV v) = true) :
    ∃ v' r', mutFld (.mk name ann isInt v) r = (.mk name ann isInt v', r') ∧
      (InBHead ann v' && InBoundsV v') = true := by
  simp only [Bool.and_eq_true] at h
  obtain ⟨hh, hv⟩ := h
  cases v with
  | num x =>
    match ann with
    | some (.gene g) =>
      refine ⟨.num (clip (x + g.mutation_std * (r.popQ).1) g.min_val g.max_val),
        (r.popQ).2, rfl, ?_⟩
      simp only [InBHead, decide_eq_true_eq] at hh
      have := clip_bounds (x + g.mutation_std * (r.popQ).1) g.min_val g.max_val
        (le_trans hh.1 hh.2)
      simp [InBHead, InBoundsV, this.1, this.2]
    | some (.geneList gl) => exact ⟨.num x, r, rfl, by simp [InBHead, InBoundsV]⟩
    | none => exact ⟨.num x, r, rfl, by simp [InBHead, InBoundsV]⟩
  | raw s =>
    match ann with
    | some (.gene g) => simp [InBHead] at hh
    | some (.geneList gl) => exact ⟨.raw s, r, rfl, by simp [InBHead, InBoundsV]⟩
    | none => exact ⟨.raw s, r, rfl, by simp [InBHead, InBoundsV]⟩
  | rawLst xs =>
    match ann with
    | some (.gene g) => simp [InBHead] at hh
    | some (.geneList gl) =>
      exact ⟨.rawLst xs, (chromStepQ gl xs r).2, rfl, by simp [InBHead, InBoundsV]⟩
    | none => exact ⟨.rawLst xs, r, rfl, by simp [InBHead, InBoundsV]⟩
  | sub c =>
    have hc := mut_inb_config c r (by simpa [InBoundsV] using hv)
    match ann with
    | some (.gene g) => simp [InBHead] at hh
    | some (.geneList gl) =>
      exact ⟨.sub (apply_mutations c r).1, (apply_mutations c r).2, rfl,
        by simp [InBHead, InBoundsV, hc]⟩
    | none =>
      exact ⟨.sub (apply_mutations c r).1, (apply_mutations c r).2, rfl,
        by simp [InBHead, InBoundsV, hc]⟩
  | lst cs =>
    have hcs : InBoundsL cs = true := by simpa [InBoundsV] using hv
    match ann with
    | some (.gene g) => simp [InBHead] at hh
    | some (.geneList gl) =>
      exact ⟨.lst (mutCfgs cs (chromStep gl cs r).2).1,
        (mutCfgs cs (chromStep gl cs r).2).2, rfl,
        by simp [InBHead, InBoundsV, mut_inb_list cs (chromStep gl cs r).2 hcs]⟩
    | none =>
      exact ⟨.lst (mutCfgs cs r).1, (mutCfgs cs r).2, rfl,
        by simp [InBHead, InBoundsV, mut_inb_list cs r hcs]⟩
termination_by (sizeOf v, 1)

theorem mut_inb_list (cs : Cfgs) (r : Rng) (h : InBoundsL cs = true) :
    InBoundsL (mutCfgs cs r).1 = true := by
  cases cs with
  | nil => simpa only [mutCfgs] using h
  | cons c cs =>
    simp only [InBoundsL, Bool.and_eq_true] at h
    simp only [mutCfgs, InBoundsL, Bool.and_eq_true]
    exact ⟨mut_inb_config c r h.1, mut_inb_list cs (apply_mutations c r).2 h.2⟩
termination_by (sizeOf cs, 0)
end

/-! Helper lemmas about field lookup in aligned records. -/

theorem aligned_names (as bs : Flds) (h : AlignedF as bs = true) :
    as.names = bs.names :=
  match as, bs with
  | .nil, .nil => rfl
  | .cons (.mk n1 a1 i1 v1) fs, .cons (.mk n2 a2 i2 v2) gs => by
    simp only [AlignedF, Bool.and_eq_true, decide_eq_true_eq] at h
    simp only [Flds.names, Fld.name]
    rw [h.1.1.1.1, aligned_names fs gs h.2]
  | .nil, .cons _ _ => by simp [AlignedF] at h
  | .cons _ _, .nil => by
    cases ‹Fld›
    simp [AlignedF] at h


theorem find_self_of_nodup (fs : Flds) (f : Fld) (hnd : fs.names.Nodup)
    (hm : f ∈ fs.toList) : fs.find? f.name = some f :=
  match fs with
  | .nil => by simp [Flds.toList] at hm
  | .cons g gs => by
    simp only [Flds.toList, List.mem_cons] at hm
    simp only [Flds.names, List.nodup_cons] at hnd
    rcases hm with rfl | hm
    · simp [Flds.find?]
    · have hne : g.name ≠ f.name := by
        intro he
        exact hnd.1 (he ▸ name_mem_of_mem gs f hm)
      simp only [Flds.find?, if_neg hne]
      exact find_self_of_nodup gs f hnd.2 hm

theorem aligned_find (as bs : Flds) (h : AlignedF as bs = true) (n : String)
    {fa : Fld} (hf : as.find? n = some fa) :
    ∃ gb, bs.find? n = some gb ∧ fa.name = gb.name ∧ fa.ann = gb.ann ∧
      fa.isInt = gb.isInt ∧ AlignedV fa.ann fa.v gb.v = true :=
  match as, bs with
  | .nil, _ => by simp [Flds.find?] at hf
  | .cons _ _, .nil => by
    cases ‹Fld›
    simp [AlignedF] at h
  | .cons (.mk n1 a1 i1 v1) fs, .cons (.mk n2 a2 i2 v2) gs => by
    simp only [AlignedF, Bool.and_eq_true, decide_eq_true_eq] at h
    obtain ⟨⟨⟨⟨hn, ha⟩, hi⟩, hv⟩, ht⟩ := h
    by_cases hcase : n1 = n
    · simp only [Flds.find?, Fld.name, if_pos hcase] at hf
      cases hf
      refine ⟨.mk n2 a2 i2 v2, ?_, by simp [Fld.name, hn], by simp [Fld.ann, ha],
        by simp [Fld.isInt, hi], ?_⟩
      · simp only [Flds.find?, Fld.name]
        rw [if_pos (hn ▸ hcase)]
      · simpa [Fld.ann, Fld.v, ha] using hv
    · simp only [Flds.find?, Fld.name, if_neg hcase] at hf
      obtain ⟨gb, hgb, rest⟩ := aligned_find fs gs ht n hf
      refine ⟨gb, ?_, rest⟩
      simp only [Flds.find?, Fld.name]
      rw [if_neg (hn ▸ hcase)]
      exact hgb

theorem find_props_inb (gs : Flds) {n : String} {g : Fld}
    (hf : gs.find? n = some g) (hb : InBoundsF gs = true) :
    (InBHead g.ann g.v && InBoundsV g.v) = true :=
  match gs with
  | .nil => by simp [Flds.find?] at hf
  | .cons (.mk n2 a2 i2 v2) gs => by
    simp only [InBoundsF, Bool.and_eq_true] at hb
    by_cases hcase : (Fld.mk n2 a2 i2 v2).name = n
    · simp only [Flds.find?, if_pos hcase] at hf
      cases hf
      simp [Fld.ann, Fld.v, hb.1.1, hb.1.2]
    · simp only [Flds.find?, if_neg hcase] at hf
      exact find_props_inb gs hf hb.2

theorem find_props_int (gs : Flds) {n : String} {g : Fld}
    (hf : gs.find? n = some g) (hb : IntOKF gs = true) :
    (IntHead g.ann g.isInt g.v && IntOKV g.v) = true :=
  match gs with
  | .nil => by simp [Flds.find?] at hf
  | .cons (.mk n2 a2 i2 v2) gs => by
    simp only [IntOKF, Bool.and_eq_true] at hb
    by_cases hcase : (Fld.mk n2 a2 i2 v2).name = n
    · simp only [Flds.find?, if_pos hcase] at hf
      cases hf
      simp [Fld.ann, Fld.isInt, Fld.v, hb.1.1, hb.1.2]
    · simp only [Flds.find?, if_neg hcase] at hf
      exact find_props_int gs hf hb.2

theorem find_props_dist (gs : Flds) {n : String} {g : Fld}
    (hf : gs.find? n = some g) (hb : DistinctF gs = true) :
    DistinctV g.v = true :=
  match gs with
  | .nil => by simp [Flds.find?] at hf
  | .cons (.mk n2 a2 i2 v2) gs => by
    simp only [DistinctF, Bool.and_eq_true] at hb
    by_cases hcase : (Fld.mk n2 a2 i2 v2).name = n
    · simp only [Flds.find?, if_pos hcase] at hf
      cases hf
      simpa [Fld.v] using hb.1
    · simp only [Flds.find?, if_neg hcase] at hf
      exact find_props_dist gs hf hb.2

theorem inbl_append (cs ds : Cfgs) (h1 : InBoundsL cs = true)
    (h2 : InBoundsL ds = true) : InBoundsL (cs.append ds) = true :=
  match cs with
  | .nil => by simpa [Cfgs.append] using h2
  | .cons c cs => by
    simp only [InBoundsL, Bool.and_eq_true] at h1
    simp only [Cfgs.append, InBoundsL, Bool.and_eq_true]
    exact ⟨h1.1, inbl_append cs ds h1.2 h2⟩

theorem inbl_take (n : ℕ) (cs : Cfgs) (h : InBoundsL cs = true) :
    InBoundsL (Cfgs.take n cs) = true :=
  match n, cs with
  | 0, _ => by simp [Cfgs.take, InBoundsL]
  | _ + 1, .nil => by simp [Cfgs.take, InBoundsL]
  | n + 1, .cons c cs => by
    simp only [InBoundsL, Bool.and_eq_true] at h
    simp only [Cfgs.take, InBoundsL, Bool.and_eq_true]
    exact ⟨h.1, inbl_take n cs h.2⟩

theorem inbl_drop (n : ℕ) (cs : Cfgs) (h : InBoundsL cs = true) :
    InBoundsL (Cfgs.drop n cs) = true :=
  match n, cs with
  | 0, _ => by simpa [Cfgs.drop] using h
  | _ + 1, .nil => by simp [Cfgs.drop, InBoundsL]
  | n + 1, .cons c cs => by
    simp only [InBoundsL, Bool.and_eq_true] at h
    simp only [Cfgs.drop]
    exact inbl_drop n cs h.2

theorem blend_result_bounds (g : Gene) (isInt : Bool) (xa xb alpha : ℚ)
    (ha1 : g.min_val ≤ xa) (ha2 : xa ≤ g.max_val)
    (hb1 : g.min_val ≤ xb) (hb2 : xb ≤ g.max_val)
    (hia : isInt = true → xa.den = 1) (hib : isInt = true → xb.den = 1)
    (h0 : 0 ≤ alpha) (h1 : alpha < 1) :
    g.min_val ≤ (if isInt then ((pyRound (alpha * xa + (1 - alpha) * xb) : ℤ) : ℚ)
        else alpha * xa + (1 - alpha) * xb) ∧
      (if isInt then ((pyRound (alpha * xa + (1 - alpha) * xb) : ℤ) : ℚ)
        else alpha * xa + (1 - alpha) * xb) ≤ g.max_val := by
  cases isInt with
  | false =>
    simp only [Bool.false_eq_true, if_false]
    exact blend_bounds alpha xa xb g.min_val g.max_val h0 (le_of_lt h1)
      ha1 ha2 hb1 hb2
  | true =>
    simp only [if_true]
    have hxa : (xa.num : ℚ) = xa := by
      rw [← Rat.num_div_den xa, hia rfl]
      simp
    have hxb : (xb.num : ℚ) = xb := by
      rw [← Rat.num_div_den xb, hib rfl]
      simp
    have hmin : ((min xa.num xb.num : ℤ) : ℚ) ≤ alpha * xa + (1 - alpha) * xb := by
      have h1' : ((min xa.num xb.num : ℤ) : ℚ) ≤ xa := by
        push_cast
        rw [hxa, hxb]
        exact min_le_of_left_le (le_refl xa)
      have h2' : ((min xa.num xb.num : ℤ) : ℚ) ≤ xb := by
        push_cast
        rw [hxa, hxb]
        exact min_le_of_right_le (le_refl xb)
      nlinarith
    have hmax : alpha * xa + (1 - alpha) * xb ≤ ((max xa.num xb.num : ℤ) : ℚ) := by
      have h1' : xa ≤ ((max xa.num xb.num : ℤ) : ℚ) := by
        push_cast
        rw [hxa, hxb]
        exact le_max_of_le_left (le_refl xa)
      have h2' : xb ≤ ((max xa.num xb.num : ℤ) : ℚ) := by
        push_cast
        rw [hxa, hxb]
        exact le_max_of_le_right (le_refl xb)
      nlinarith
    obtain ⟨hr1, hr2⟩ := pyRound_bounds (min xa.num xb.num) (max xa.num xb.num)
      (alpha * xa + (1 - alpha) * xb) hmin hmax
    constructor
    · calc g.min_val ≤ ((min xa.num xb.num : ℤ) : ℚ) := by
            push_cast
            rw [hxa, hxb]
            exact le_min ha1 hb1
        _ ≤ ((pyRound (alpha * xa + (1 - alpha) * xb) : ℤ) : ℚ) := by
            exact_mod_cast hr1
    · calc ((pyRound (alpha * xa + (1 - alpha) * xb) : ℤ) : ℚ)
          ≤ ((max xa.num xb.num : ℤ) : ℚ) := by exact_mod_cast hr2
        _ ≤ g.max_val := by
            push_cast
            rw [hxa, hxb]
            exact max_le ha2 hb2

/-! Bounds preservation of `apply_crossover` (the crossover half of C5). -/

mutual
theorem cross_inb_config (a b : Config) (r : Rng)
    (ha : InBoundsC a = true) (hai : IntOKC a = true)
    (hb : InBoundsC b = true) (hbi : IntOKC b = true)
    (hal : AlignedC a b = true) (hbd : DistinctC b = true)
    (hr : rngUnit r = true) :
    InBoundsC (apply_crossover a b r).1 = true ∧
      rngUnit (apply_crossover a b r).2 = true := by
  cases a with
  | mk tn fs =>
    cases b with
    | mk tnb gs =>
      simp only [apply_crossover, InBoundsC]
      simp only [InBoundsC] at ha hb
      simp only [IntOKC] at hai hbi
      simp only [AlignedC] at hal
      simp only [DistinctC, Bool.and_eq_true, decide_eq_true_eq] at hbd
      have hnodup : fs.names.Nodup := by
        rw [aligned_names fs gs hal]
        exact hbd.1
      exact cross_inb_flds fs (.mk tnb gs) r
        (by
          intro f hf
          have hfind := find_self_of_nodup fs f hnodup hf
          obtain ⟨gb, hgb, _, hann, hint, hav⟩ := aligned_find fs gs hal f.name hfind
          exact ⟨gb, hgb, hann, hint, hav,
            find_props_inb gs hgb hb, find_props_int gs hgb hbi,
            find_props_dist gs hgb hbd.2⟩)
        ha hai hr
termination_by (sizeOf a, 0)

theorem cross_inb_flds (fs : Flds) (b : Config) (r : Rng)
    (H : ∀ f ∈ fs.toList, ∃ gb, b.find? f.name = some gb ∧
      f.ann = gb.ann ∧ f.isInt = gb.isInt ∧ AlignedV f.ann f.v gb.v = true ∧
      (InBHead gb.ann gb.v && InBoundsV gb.v) = true ∧
      (IntHead gb.ann gb.isInt gb.v && IntOKV gb.v) = true ∧
      DistinctV gb.v = true)
    (ha : InBoundsF fs = true) (hai : IntOKF fs = true)
    (hr : rngUnit r = true) :
    InBoundsF (crossFlds fs b r).1 = true ∧
      rngUnit (crossFlds fs b r).2 = true := by
  cases fs with
  | nil =>
    simp only [crossFlds]
    exact ⟨rfl, hr⟩
  | cons f fs =>
    cases f with
    | mk n a i v =>
      obtain ⟨gb, hgb, hann, hint, halv, hgbv, hgbi, hgbd⟩ :=
        H (.mk n a i v) (by simp [Flds.toList])
      cases gb with
      | mk gn ga gi gv =>
        simp only [Fld.name] at hgb
        simp only [Fld.ann, Fld.isInt, Fld.v] at hann hint halv hgbv hgbi hgbd
        subst hann
        subst hint
        simp only [InBoundsF, Bool.and_eq_true] at ha
        simp only [IntOKF, Bool.and_eq_true] at hai
        simp only [crossFlds, Fld.name, hgb, Option.map_some', Fld.v]
        obtain ⟨v', r', heq, hv', hr'⟩ :=
          cross_inb_fld n a i v gv r
            (by simp [ha.1.1, ha.1.2])
            (by simp [hai.1.1, hai.1.2])
            hgbv hgbi hgbd halv hr
        rw [heq]
        have hrest := cross_inb_flds fs b r'
          (fun f hf => H f (by simp [Flds.toList, hf]))
          ha.2 hai.2 hr'
        simp only [InBoundsF, Bool.and_eq_true]
        exact ⟨⟨by simpa [Bool.and_eq_true] using hv', hrest.1⟩, hrest.2⟩
termination_by (sizeOf fs, 0)

theorem cross_inb_fld (name : String) (ann : Option Ann) (isInt : Bool)
    (v vb : Val) (r : Rng)
    (hav : (InBHead ann v && InBoundsV v) = true)
    (hai : (IntHead ann isInt v && IntOKV v) = true)
    (hbv : (InBHead ann vb && InBoundsV vb) = true)
    (hbi : (IntHead ann isInt vb && IntOKV vb) = true)
    (hbd : DistinctV vb = true)
    (hal : AlignedV ann v vb = true)
    (hr : rngUnit r = true) :
    ∃ v' r', crossFld (.mk name ann isInt v) (some vb) r = (.mk name ann isInt v', r') ∧
      (InBHead ann v' && InBoundsV v') = true ∧ rngUnit r' = true := by
  simp only [Bool.and_eq_true] at hav hai hbv hbi
  match ann with
  | some (.gene g) =>
    cases v <;> cases vb <;> simp [AlignedV] at hal
    case num.num xa xb =>
      obtain ⟨hq0, hq1, hqu⟩ := popQ_unit r hr
      simp only [InBHead, decide_eq_true_eq] at hav hbv
      have hia : isInt = true → xa.den = 1 := by
        intro hI
        have := hai.1
        rw [hI] at this
        simpa [IntHead] using this
      have hib : isInt = true → xb.den = 1 := by
        intro hI
        have := hbi.1
        rw [hI] at this
        simpa [IntHead] using this
      have hbnds := blend_result_bounds g isInt xa xb (r.popQ).1
        hav.1.1 hav.1.2 hbv.1.1 hbv.1.2 hia hib hq0 hq1
      refine ⟨.num (if isInt then
          ((pyRound ((r.popQ).1 * xa + (1 - (r.popQ).1) * xb) : ℤ) : ℚ)
        else (r.popQ).1 * xa + (1 - (r.popQ).1) * xb), (r.popQ).2, rfl, ?_, hqu⟩
      simp only [InBHead, InBoundsV, Bool.and_eq_true, decide_eq_true_eq]
      exact ⟨⟨hbnds.1, hbnds.2⟩, trivial⟩
  | some (.geneList gl) =>
    cases v <;> cases vb <;> simp [AlignedV] at hal
    case rawLst.rawLst xs ys =>
      by_cases hc : xs.length > 0 ∧ ys.length > 0
      · refine ⟨.rawLst (if (xs.take ((r.popN).1 % min xs.length ys.length) ++
            ys.drop ((r.popN).1 % min xs.length ys.length)).length > gl.max_len then
              (xs.take ((r.popN).1 % min xs.length ys.length) ++
                ys.drop ((r.popN).1 % min xs.length ys.length)).take gl.max_len
            else xs.take ((r.popN).1 % min xs.length ys.length) ++
              ys.drop ((r.popN).1 % min xs.length ys.length)),
          (r.popN).2, ?_, by simp [InBHead, InBoundsV], popN_unit r hr⟩
        simp only [crossFld]
        rw [if_pos hc]
      · refine ⟨.rawLst xs, r, ?_, by simp [InBHead, InBoundsV], hr⟩
        simp only [crossFld]
        rw [if_neg hc]
    case lst.lst as bs =>
      simp only [InBoundsV] at hav hbv
      by_cases hc : as.length > 0 ∧ bs.length > 0
      · refine ⟨.lst (if ((Cfgs.take ((r.popN).1 % min as.length bs.length) as).append
            (Cfgs.drop ((r.popN).1 % min as.length bs.length) bs)).length > gl.max_len then
              Cfgs.take gl.max_len ((Cfgs.take ((r.popN).1 % min as.length bs.length) as).append
                (Cfgs.drop ((r.popN).1 % min as.length bs.length) bs))
            else (Cfgs.take ((r.popN).1 % min as.length bs.length) as).append
              (Cfgs.drop ((r.popN).1 % min as.length bs.length) bs)),
          (r.popN).2, ?_, ?_, popN_unit r hr⟩
        · simp only [crossFld]
          rw [if_pos hc]
        · have hnl : InBoundsL ((Cfgs.take ((r.popN).1 % min as.length bs.length) as).append
              (Cfgs.drop ((r.popN).1 % min as.length bs.length) bs)) = true :=
            inbl_append _ _ (inbl_take _ _ hav.2) (inbl_drop _ _ hbv.2)
          by_cases hl : ((Cfgs.take ((r.popN).1 % min as.length bs.length) as).append
              (Cfgs.drop ((r.popN).1 % min as.length bs.length) bs)).length > gl.max_len
          · rw [if_pos hl]
            simp [InBHead, InBoundsV, inbl_take _ _ hnl]
          · rw [if_neg hl]
            simp [InBHead, InBoundsV, hnl]
      · refine ⟨.lst as, r, ?_, by simp [InBHead, InBoundsV, hav.2], hr⟩
        simp only [crossFld]
        rw [if_neg hc]
  | none =>
    cases v <;> cases vb <;> simp [AlignedV] at hal
    case num.num xa xb =>
      exact ⟨.num xa, r, rfl, by simpa [Bool.and_eq_true] using ⟨hav.1, hav.2⟩, hr⟩
    case raw.raw sa sb =>
      exact ⟨.raw sa, r, rfl, by simpa [Bool.and_eq_true] using ⟨hav.1, hav.2⟩, hr⟩
    case rawLst.rawLst xs ys =>
      exact ⟨.rawLst (xs.take (min xs.length ys.length) ++
          (if xs.length > min xs.length ys.length then xs.drop (min xs.length ys.length)
           else if ys.length > min xs.length ys.length then ys.drop (min xs.length ys.length)
           else [])), r, rfl, by simp [InBHead, InBoundsV], hr⟩
    case sub.sub ca cb =>
      simp only [InBoundsV] at hav hbv
      simp only [IntOKV] at hai hbi
      simp only [DistinctV] at hbd
      have hrec := cross_inb_config ca cb r hav.2 hai.2 hbv.2 hbi.2 hal hbd hr
      exact ⟨.sub (apply_crossover ca cb r).1, (apply_crossover ca cb r).2, rfl,
        by simp [InBHead, InBoundsV, hrec.1], hrec.2⟩
    case lst.lst as bs =>
      simp only [InBoundsV] at hav hbv
      simp only [IntOKV] at hai hbi
      simp only [DistinctV] at hbd
      have hrec := cross_inb_zip as bs r hal hav.2 hai.2 hbv.2 hbi.2 hbd hr
      have htail : InBoundsL (if bs.length < as.length then
          Cfgs.drop (min as.length bs.length) as
        else if as.length < bs.length then
          Cfgs.drop (min as.length bs.length) bs
        else .nil) = true := by
        by_cases h1 : bs.length < as.length
        · rw [if_pos h1]
          exact inbl_drop _ _ hav.2
        · rw [if_neg h1]
          by_cases h2 : as.length < bs.length
          · rw [if_pos h2]
            exact inbl_drop _ _ hbv.2
          · rw [if_neg h2]
            rfl
      exact ⟨.lst ((crossZip as bs r).1.append _), (crossZip as bs r).2, rfl,
        by simp [InBHead, InBoundsV, inbl_append _ _ hrec.1 htail], hrec.2⟩
termination_by (sizeOf v, 1)

theorem cross_inb_zip (as bs : Cfgs) (r : Rng)
    (hal : AlignedZip as bs = true)
    (ha : InBoundsL as = true) (hai : IntOKL as = true)
    (hb : InBoundsL bs = true) (hbi : IntOKL bs = true)
    (hbd : DistinctL bs = true) (hr : rngUnit r = true) :
    InBoundsL (crossZip as bs r).1 = true ∧
      rngUnit (crossZip as bs r).2 = true := by
  match as, bs with
  | .nil, .nil => exact ⟨rfl, hr⟩
  | .nil, .cons _ _ => exact ⟨rfl, hr⟩
  | .cons _ _, .nil => exact ⟨rfl, hr⟩
  | .cons a as, .cons b bs =>
    simp only [AlignedZip, Bool.and_eq_true] at hal
    simp only [InBoundsL, Bool.and_eq_true] at ha hb
    simp only [IntOKL, Bool.and_eq_true] at hai hbi
    simp only [DistinctL, Bool.and_eq_true] at hbd
    have h1 := cross_inb_config a b r ha.1 hai.1 hb.1 hbi.1 hal.1 hbd.1 hr
    have h2 := cross_inb_zip as bs (apply_crossover a b r).2 hal.2
      ha.2 hai.2 hb.2 hbi.2 hbd.2 h1.2
    simp only [crossZip, InBoundsL, Bool.and_eq_true]
    exact ⟨⟨h1.1, h2.1⟩, h2.2⟩
termination_by (sizeOf as, 0)
end

/-- **C5**.  The bounds invariant: if every scalar-gene field of the
genotype lies within its declared `[min_val, max_val]` interval
(`InBoundsC`), then so does every scalar-gene field of the genotype
returned by `apply_mutations`; and if two parents of the same record
type (same field names, annotations and declared kinds, `AlignedC`, with
pydantic-guaranteed distinct field names, `DistinctC`) both satisfy the
bounds and the integer-kind discipline (`IntOKC`: an integral field holds
an integer value with integer bounds), then so does the child returned
by record-aligned `apply_crossover`, for every random state whose unit
draws lie in `[0, 1)` as `np.random.rand` guarantees. -/
theorem C5_bounds_invariant :
    (∀ (c : Config) (r : Rng), InBoundsC c = true →
        InBoundsC (apply_mutations c r).1 = true) ∧
    (∀ (a b : Config) (r : Rng),
        InBoundsC a = true → IntOKC a = true →
        InBoundsC b = true → IntOKC b = true →
        AlignedC a b = true → DistinctC b = true →
        rngUnit r = true →
        InBoundsC (apply_crossover a b r).1 = true) :=
  ⟨fun c r h => mut_inb_config c r h,
   fun a b r ha hai hb hbi hal hbd hr =>
     (cross_inb_config a b r ha hai hb hbi hal hbd hr).1⟩

theorem C5_bounds_invariant_witness :
    InBoundsC (apply_mutations intCfg ⟨[2, 0], [0]⟩).1 = true ∧
    InBoundsC (apply_crossover intCfg intCfg ⟨[0], [0]⟩).1 = true :=
  ⟨C5_bounds_invariant.1 intCfg ⟨[2, 0], [0]⟩ (by decide),
   C5_bounds_invariant.2 intCfg intCfg ⟨[0], [0]⟩ (by decide) (by decide)
     (by decide) (by decide) (by simp [intCfg, AlignedC, AlignedF, AlignedV]) (by decide) (by decide)⟩

/-- **C8**.  `apply_mutations` returns a genotype with the same type
name, field names, annotations and declared kinds as its input in which
every field without a gene annotation holds an unchanged value except
inside gene-annotated descendants (`FrameC` spells this out recursively);
gene-annotated fields may change freely, as the claim allows.  The
"never modifies its inputs" half of the claim is inherent in this value
embedding: the source deep-copies its argument on entry and assigns only
to the copy. -/
theorem C8_mutate_frame :
    ∀ (c : Config) (r : Rng), FrameC c (apply_mutations c r).1 = true :=
  fun c r => frame_mut_config c r

/-- **C4** (witness).  The claim's concrete scenario: `max_len = 3`, one
element flattening to `[4.0, 5.0]` — contribution
`[1, 4.0, 5.0, NaN, NaN, NaN, NaN]` of length `7 = 1 + 3 * 2`. -/
theorem C4_field_contribution_witness :
    flatFld (.mk "xs" (some (.geneList glC4)) false (.lst (.cons elem45 .nil)))
        = .ok (some ((Cfgs.cons elem45 .nil).length : ℚ) ::
            ([[some 4, some 5]].flatten ++
              List.replicate ((glC4.max_len - (Cfgs.cons elem45 .nil).length) * 2) none)) ∧
      (some ((Cfgs.cons elem45 .nil).length : ℚ) ::
            ([[some 4, some 5]].flatten ++
              List.replicate ((glC4.max_len - (Cfgs.cons elem45 .nil).length) * 2) none)).length
        = 1 + glC4.max_len * 2 :=
  (C4_field_contribution.1 "xs" glC4 false (.cons elem45 .nil) [[some 4, some 5]] 2
    (by rfl) (by simp) (by simp) (by decide))

end Evodex

